import Mathlib

/-!
Verification development for the anglais compiler + virtual machine core.

This file gives a shallow embedding, in Lean 4, of the parts of the Go
source that the examined properties speak about:

* the structural type signatures and their matching relation (signature.go),
* the tagged runtime values, their equality, cloning, and the builtin
  prototype tables (values.go),
* the AST nodes and the compiler fragments: constant detection
  (isTreeConstant), the compile-time evaluator (compute / computeBinary),
  type deduction (deduceSignature), bytecode emission (add / addU16 /
  putU16) and import resolution (Compile / resolveImport),
* the virtual machine: chunks, call frames, the full instruction step
  function (VM.Next), purgeVars, and the variableEnd stack partition,
* a heap model of container values used to reason about aliasing of
  variables (Clone on declaration / assignment).

Modelling conventions, chosen once and used throughout:

* Go float64 numbers are modelled by the rationals.  No property proved
  here depends on rounding, on IEEE special values, or on float
  formatting; division is the exact one (the one divergence, x/0, is
  never relied upon).
* Go panics (failed interface type assertions, nil dereferences, slice
  index violations, the untyped panic calls in the source) are modelled
  by a distinguished crash outcome, kept separate from the error-value
  outcome that the Go code produces via its error returns.
* Go maps are modelled by association lists looked up by key.
* The bounded stacks of the source are modelled as unbounded lists; the
  capacity overflow panic is an assertion-level event orthogonal to
  every property treated here.
-/

namespace Anglais

/-- Outcome of running a piece of Go code: a normal result, an error
returned through a Go error value, or a runtime panic / fatal crash. -/
inductive GoRes (α : Type) where
  | ok (a : α)
  | err (msg : String)
  | crash
deriving DecidableEq

/-- Association-list lookup, the model of Go map indexing. -/
def lookupStr {α : Type} : List (String × α) → String → Option α
  | [], _ => none
  | (k2, v) :: rest, k => if k2 = k then some v else lookupStr rest k

theorem lookupStr_sizeOf {α : Type} [SizeOf α] :
    ∀ (l : List (String × α)) (k : String) (v : α),
    lookupStr l k = some v → sizeOf v < sizeOf l := by
  intro l
  induction l with
  | nil => intro k v h; simp [lookupStr] at h
  | cons hd tl ih =>
    intro k v h
    obtain ⟨k2, w⟩ := hd
    by_cases hk : k2 = k
    · simp [lookupStr, hk] at h
      subst h
      simp
      omega
    · simp [lookupStr, hk] at h
      have := ih k v h
      simp
      omega

/-- The Type enumeration of signature.go. -/
inductive GoType where
  | tString
  | tNumber
  | tBoolean
  | tNil
  | tList
  | tObject
  | tFunction
  | tAny
  | tComposite
  | tInner
deriving DecidableEq

/-- TypeSignature of signature.go.  The constructor null models a nil
TypeSignature interface value (it arises, for instance, as the Contents
of the signature SignatureOf deduces for an empty list); invoking a
method on it is a Go panic. -/
inductive TypeSig where
  | null
  | nilT
  | strT
  | numT
  | boolT
  | listT (contents : TypeSig)
  | objT (members : List (String × TypeSig))
  | fnT (tin : List TypeSig) (out : TypeSig)
  | anyT
  | compT (a b : TypeSig)
  | innerT

/-- The Type method of each signature variant; none models the panic of
calling the method on a nil interface. -/
def TypeSig.typeOf : TypeSig → Option GoType
  | .null => none
  | .nilT => some .tNil
  | .strT => some .tString
  | .numT => some .tNumber
  | .boolT => some .tBoolean
  | .listT _ => some .tList
  | .objT _ => some .tObject
  | .fnT _ _ => some .tFunction
  | .anyT => some .tAny
  | .compT _ _ => some .tComposite
  | .innerT => some .tInner

mutual

/-- Matches of signature.go: receiver-style structural matching,
s.matches other corresponds to s.Matches(other).  Every non-composite
variant starts with: if the other side is a composite, dispatch to the
composite from the other side; that dynamic dispatch is written here
with the body of CompositeSignature.Matches unfolded one step, which is
what the Go dispatch executes.  The result is none exactly when the Go
code would panic (a method call on a nil interface signature). -/
def TypeSig.matches (s other : TypeSig) : Option Bool :=
  match s, other with
  | .anyT, _ => some true
  | .innerT, _ => some false
  | .null, _ => none
  | .compT a b, o => do
      let x ← TypeSig.matches a o
      if x then pure true else TypeSig.matches b o
  | s2, .compT a b => do
      let x ← TypeSig.matches a s2
      if x then pure true else TypeSig.matches b s2
  | .nilT, other2 => do
      let t ← other2.typeOf
      pure (t == .tAny || t == .tNil)
  | .strT, other2 => do
      let t ← other2.typeOf
      pure (t == .tAny || t == .tString)
  | .numT, other2 => do
      let t ← other2.typeOf
      pure (t == .tAny || t == .tNumber)
  | .boolT, other2 => do
      let t ← other2.typeOf
      pure (t == .tAny || t == .tBoolean)
  | .listT _, .anyT => some true
  | .listT c, .listT c2 => TypeSig.matches c2 c
  | .listT _, .null => none
  | .listT _, _ => some false
  | .objT _, .anyT => some true
  | .objT ms, .objT oms =>
      if oms.length ≠ ms.length then some false
      else TypeSig.matchesMembers oms ms
  | .objT _, .null => none
  | .objT _, _ => some false
  | .fnT _ _, .anyT => some true
  | .fnT tin out, .fnT fin fout => do
      let ho ← TypeSig.matches out fout
      if ho then
        if fin.length ≠ tin.length then pure false
        else TypeSig.matchesIns fin tin
      else pure false
  | .fnT _ _, .null => none
  | .fnT _ _, _ => some false
termination_by sizeOf s + sizeOf other
decreasing_by
  all_goals simp_wf
  all_goals omega

/-- The member loop of ObjectSignature.Matches: every member of the
receiver must be present in the other object and match it. -/
def TypeSig.matchesMembers (oms : List (String × TypeSig)) (ms : List (String × TypeSig)) :
    Option Bool :=
  match ms with
  | [] => some true
  | (name, member) :: rest =>
      match h : lookupStr oms name with
      | none => some false
      | some v => do
          let r ← TypeSig.matches v member
          if r then TypeSig.matchesMembers oms rest else pure false
termination_by sizeOf oms + sizeOf ms
decreasing_by
  all_goals simp_wf
  all_goals first
    | omega
    | (have t := lookupStr_sizeOf _ _ _ h; simp at t ⊢; omega)

/-- The parameter loop of FunctionSignature.Matches: the receiver
parameters matched against the other parameters position by position. -/
def TypeSig.matchesIns (fin : List TypeSig) (tin : List TypeSig) : Option Bool :=
  match tin, fin with
  | [], _ => some true
  | p :: prest, v :: vrest => do
      let r ← TypeSig.matches p v
      if r then TypeSig.matchesIns vrest prest else pure false
  | _ :: _, [] => none
termination_by sizeOf fin + sizeOf tin
decreasing_by
  all_goals simp_wf
  all_goals omega

end

/-- Whether a signature is the nil interface (Go: sig == nil). -/
def TypeSig.isNull : TypeSig → Bool
  | .null => true
  | _ => false

/-- The ValueType enumeration of values.go. -/
inductive GoValueType where
  | nilValue
  | boolValue
  | numberValue
  | stringValue
  | listValue
  | objectValue
  | functionValue
  | builtinFunctionValue
  | variableValue
deriving DecidableEq

/-- Identity of a builtin function.  Every BuiltinFunctionValue in the
source is one of the DefaultGlobals entries or one of the prototype
entries; the tag determines its Name, Signature, F and Constant flag. -/
inductive BuiltinTag where
  | writeB
  | printB
  | formatB
  | charB
  | byteB
  | assertEqB
  | assertNotEqB
  | strB
  | typeB
  | exitB
  | splitP
  | strLengthP
  | appendP
  | atP
  | listLengthP
  | mapP
  | reduceP
  | objSetP
deriving DecidableEq

/-- The runtime Value of values.go.  goNil models a nil Value interface
(the Go code produces one, for instance, as the return of the write and
print builtins); calling any method on it is a panic.  A FunctionValue
owns its chunk, inlined here as the bytecode and constant lists; the Go
code compares chunks by pointer, which structural equality of the two
lists approximates. -/
inductive Value where
  | nil
  | goNil
  | bool (b : Bool)
  | num (q : ℚ)
  | str (s : String)
  | list (items : List Value)
  | obj (members : List (String × Value))
  | fn (name : String) (params : List (String × TypeSig)) (yield : TypeSig)
       (code : List Nat) (consts : List Value) (parent : Value)
  | builtin (tag : BuiltinTag) (parent : Value)
  | varV (name : String) (value : Value) (scope : Int)

/-- The Type method of each value variant; none models the panic of a
method call on a nil interface. -/
def Value.typeOf : Value → Option GoValueType
  | .nil => some .nilValue
  | .goNil => none
  | .bool _ => some .boolValue
  | .num _ => some .numberValue
  | .str _ => some .stringValue
  | .list _ => some .listValue
  | .obj _ => some .objectValue
  | .fn .. => some .functionValue
  | .builtin .. => some .builtinFunctionValue
  | .varV .. => some .variableValue

/-- The Name field of each builtin.  The byte builtin is declared in the
source with Name "char" (vm.go, a copy-paste in the literal); that is
kept here. -/
def builtinName : BuiltinTag → String
  | .writeB => "write"
  | .printB => "print"
  | .formatB => "format"
  | .charB => "char"
  | .byteB => "char"
  | .assertEqB => "assertEq"
  | .assertNotEqB => "assertNotEq"
  | .strB => "str"
  | .typeB => "type"
  | .exitB => "exit"
  | .splitP => "split"
  | .strLengthP => "length"
  | .appendP => "append"
  | .atP => "at"
  | .listLengthP => "length"
  | .mapP => "map"
  | .reduceP => "reduce"
  | .objSetP => "set"

/-- The declared FunctionSignature of each builtin, transcribed from
DefaultGlobals in vm.go and from the prototype tables in values.go.
Note in particular: split is declared with output NilSignature; map is
declared with output ListSignature with nil contents; set is declared
with second input ListSignature with nil contents. -/
def builtinSig : BuiltinTag → TypeSig
  | .writeB => .fnT [.strT] .nilT
  | .printB => .fnT [.strT] .nilT
  | .formatB => .fnT [.strT, .listT .anyT] .strT
  | .charB => .fnT [.numT] .strT
  | .byteB => .fnT [.strT] .numT
  | .assertEqB => .fnT [.anyT, .anyT] .nilT
  | .assertNotEqB => .fnT [.anyT, .anyT] .nilT
  | .strB => .fnT [.anyT] .strT
  | .typeB => .fnT [.anyT] .strT
  | .exitB => .fnT [.numT] .nilT
  | .splitP => .fnT [.strT] .nilT
  | .strLengthP => .fnT [] .numT
  | .appendP => .fnT [.anyT] .nilT
  | .atP => .fnT [.numT] .anyT
  | .listLengthP => .fnT [] .numT
  | .mapP => .fnT [.fnT [.anyT] .anyT] (.listT .null)
  | .reduceP => .fnT [.fnT [.anyT, .anyT] .anyT, .anyT] .anyT
  | .objSetP => .fnT [.strT, .listT .null] .nilT

/-- The Constant flag of each builtin (compile-time evaluability). -/
def builtinIsConstant : BuiltinTag → Bool
  | .formatB => true
  | .charB => true
  | .byteB => true
  | .strB => true
  | .typeB => true
  | .splitP => true
  | _ => false

/-- The String prototype table of values.go. -/
def StringPrototype : String → Option BuiltinTag
  | "split" => some .splitP
  | "length" => some .strLengthP
  | _ => none

/-- The List prototype table of values.go. -/
def ListPrototype : String → Option BuiltinTag
  | "append" => some .appendP
  | "at" => some .atP
  | "length" => some .listLengthP
  | "map" => some .mapP
  | "reduce" => some .reduceP
  | _ => none

/-- The Object prototype table of values.go. -/
def ObjectPrototype : String → Option BuiltinTag
  | "set" => some .objSetP
  | _ => none

mutual

/-- Equals of values.go, receiver style: valueEquals v other is
v.Equals(other).  none models a Go panic: a method call on a nil
interface value, or — inside ObjectValue.Equals — the dereference of a
missing member (indexing the other map at an absent key yields a nil
Value whose Equals is then invoked). -/
def valueEquals (v other : Value) : Option Bool :=
  match v with
  | .goNil => none
  | .nil => do
      let t ← other.typeOf
      pure (t == .nilValue)
  | .bool b => do
      let t ← other.typeOf
      if t = .boolValue then
        match other with
        | .bool b2 => pure (b2 == b)
        | _ => none
      else pure false
  | .num q => do
      let t ← other.typeOf
      if t = .numberValue then
        match other with
        | .num q2 => pure (q2 == q)
        | _ => none
      else pure false
  | .str s => do
      let t ← other.typeOf
      if t = .stringValue then
        match other with
        | .str s2 => pure (s2 == s)
        | _ => none
      else pure false
  | .list items => do
      let t ← other.typeOf
      if t ≠ .listValue then pure false
      else
        match other with
        | .list oitems =>
            if items.length ≠ oitems.length then pure false
            else valueEqualsItems items oitems
        | _ => none
  -- ObjectValue.Equals uses a checked type assertion (not Type()), so a
  -- non-object other — including a nil interface — yields false, no panic.
  | .obj members =>
      match other with
      | .obj omembers => valueEqualsMembers members omembers
      | _ => pure false
  | .fn name _ _ code consts _ => do
      let t ← other.typeOf
      if t = .functionValue then
        match other with
        | .fn name2 _ _ code2 consts2 _ =>
            if name = name2 then valueEqualsConsts consts consts2 code code2
            else pure false
        | _ => none
      else pure false
  | .builtin tag _ => do
      let t ← other.typeOf
      if t = .builtinFunctionValue then
        match other with
        | .builtin tag2 _ => pure (builtinName tag == builtinName tag2)
        | _ => none
      else pure false
  | .varV name value _ => do
      let t ← other.typeOf
      if t = .variableValue then
        match other with
        | .varV name2 value2 _ =>
            if name = name2 then valueEquals value value2
            else pure false
        | _ => none
      else pure false
termination_by sizeOf v + sizeOf other
decreasing_by
  all_goals simp_wf
  all_goals omega

/-- The item loop of ListValue.Equals: the receiver items compared in
order against the other items. -/
def valueEqualsItems (items oitems : List Value) : Option Bool :=
  match items, oitems with
  | [], _ => some true
  | x :: xs, y :: ys => do
      let r ← valueEquals x y
      if r then valueEqualsItems xs ys else pure false
  | _ :: _, [] => none
termination_by sizeOf items + sizeOf oitems
decreasing_by
  all_goals simp_wf
  all_goals omega

/-- The member loop of ObjectValue.Equals: for each member of the
receiver, the member of the same name is looked up in the other object
and its Equals method is invoked with the receiver member as argument;
a missing member is a nil Value and the invocation panics (none). -/
def valueEqualsMembers (members omembers : List (String × Value)) : Option Bool :=
  match members with
  | [] => some true
  | (key, value) :: rest =>
      match h : lookupStr omembers key with
      | none => none
      | some w => do
          let r ← valueEquals w value
          if r then valueEqualsMembers rest omembers else pure false
termination_by sizeOf omembers + sizeOf members
decreasing_by
  all_goals simp_wf
  all_goals first
    | omega
    | (have t := lookupStr_sizeOf _ _ _ h; simp at t ⊢; omega)

/-- Structural comparison of the chunks owned by two function values
(bytecode plus constants).  The Go code compares the two Chunk pointers
for identity; two structurally equal chunks approximate that here. -/
def valueEqualsConsts (consts consts2 : List Value) (code code2 : List Nat) : Option Bool :=
  match consts, consts2 with
  | [], [] => pure (code == code2)
  | x :: xs, y :: ys => do
      let r ← valueEquals x y
      if r then valueEqualsConsts xs ys code code2 else pure false
  | _, _ => pure false
termination_by sizeOf consts + sizeOf consts2
decreasing_by
  all_goals simp_wf
  all_goals omega

end

mutual

/-- Clone of values.go: a deep copy for containers and variables, a
field-for-field copy for the other variants (in particular Clone of a
function copies the chunk reference and the Parent reference without
descending into them).  none models the panic of Clone on a nil
interface value. -/
def valueClone : Value → Option Value
  | .goNil => none
  | .nil => some .nil
  | .bool b => some (.bool b)
  | .num q => some (.num q)
  | .str s => some (.str s)
  | .list items => do
      let n ← valueCloneItems items
      pure (.list n)
  | .obj members => do
      let m ← valueCloneMembers members
      pure (.obj m)
  | .fn name params yield code consts parent =>
      some (.fn name params yield code consts parent)
  | .builtin tag parent => some (.builtin tag parent)
  | .varV name value scope => do
      let v2 ← valueClone value
      pure (.varV name v2 scope)

/-- The item loop of ListValue.Clone. -/
def valueCloneItems : List Value → Option (List Value)
  | [] => some []
  | x :: xs => do
      let y ← valueClone x
      let ys ← valueCloneItems xs
      pure (y :: ys)

/-- The member loop of ObjectValue.Clone. -/
def valueCloneMembers : List (String × Value) → Option (List (String × Value))
  | [] => some []
  | (k, x) :: xs => do
      let y ← valueClone x
      let ys ← valueCloneMembers xs
      pure ((k, y) :: ys)

end

mutual

/-- String of values.go: the display form of a value.  The numeric case
abstracts the float64 g-format of the source by the canonical rational
form; no property proved in this file depends on number formatting.
none models the panic of a method call on a nil interface value. -/
def valueString : Value → Option String
  | .goNil => none
  | .nil => some "nil"
  | .bool b => some (if b then "true" else "false")
  | .num q => some (toString q)
  | .str s => some s
  | .list items => do
      let body ← valueStringItems items
      pure ("[" ++ body ++ "]")
  | .obj members => do
      let body ← valueStringMembers members
      pure ("\x7b" ++ body ++ "\x7d")
  | .fn name _ _ _ _ _ => some ("<function name=" ++ name ++ ">")
  | .builtin tag _ => some ("<function name=" ++ builtinName tag ++ " builtin>")
  | .varV name value scope => do
      let vs ← valueString value
      pure ("<variable name=" ++ name ++ " value=" ++ vs ++ " scope=" ++ toString scope ++ ">")
termination_by v => 2 * sizeOf v
decreasing_by
  all_goals simp_wf
  all_goals omega

/-- DebugString of values.go: like String but strings are quoted. -/
def valueDebugString (v : Value) : Option String :=
  match v with
  | .str s => some ("\"" ++ s ++ "\"")
  | .goNil => none
  | v2 => valueString v2
termination_by 2 * sizeOf v + 1
decreasing_by
  all_goals simp_wf
  all_goals omega

/-- The item loop of ListValue.String: items joined by a comma, each
rendered with DebugString. -/
def valueStringItems : List Value → Option String
  | [] => some ""
  | [x] => valueDebugString x
  | x :: xs => do
      let s1 ← valueDebugString x
      let s2 ← valueStringItems xs
      pure (s1 ++ ", " ++ s2)
termination_by items => 2 * sizeOf items
decreasing_by
  all_goals simp_wf
  all_goals omega

/-- The member loop of ObjectValue.String: members joined by a comma,
each rendered as a quoted key, an equals sign and the String of the
value.  The Go map iteration order is unspecified; the member list
order stands in for it. -/
def valueStringMembers : List (String × Value) → Option String
  | [] => some ""
  | [(k, x)] => do
      let s1 ← valueString x
      pure ("\"" ++ k ++ "\"=" ++ s1)
  | (k, x) :: xs => do
      let s1 ← valueString x
      let s2 ← valueStringMembers xs
      pure ("\"" ++ k ++ "\"=" ++ s1 ++ ", " ++ s2)
termination_by members => 2 * sizeOf members
decreasing_by
  all_goals simp_wf
  all_goals omega

end

mutual

/-- SignatureOf of signature.go: the structural signature of a runtime
value.  none models the panic of the final catch-all (NilValue,
VariableValue and the nil interface have no case in the source switch).
Note the object case returns an ObjectSignature with a nil member map
and the empty list case returns a ListSignature with nil contents. -/
def SignatureOf : Value → Option TypeSig
  | .str _ => some .strT
  | .num _ => some .numT
  | .bool _ => some .boolT
  | .list items => do
      let c ← signatureOfItems items .null
      pure (.listT c)
  | .obj _ => some (.objT [])
  | .fn _ params yield _ _ _ => some (.fnT (params.map Prod.snd) yield)
  | .builtin tag _ => some (builtinSig tag)
  | .nil => none
  | .goNil => none
  | .varV .. => none

/-- The contents-deduction loop of SignatureOf for lists: starting from
the nil signature, adopt the signature of the first item, then keep it
while later items match it, collapsing to Any (and stopping) on the
first mismatch. -/
def signatureOfItems (items : List Value) (contains : TypeSig) : Option TypeSig :=
  match items with
  | [] => some contains
  | p :: rest => do
      let sig ← SignatureOf p
      if contains.isNull then signatureOfItems rest sig
      else do
        let m ← TypeSig.matches contains sig
        if m then signatureOfItems rest contains else pure .anyT

end

/-- Get of values.go: property lookup on a value.  Instance members are
consulted before the prototype for objects; strings and lists consult
their prototype tables; the remaining variants return an error.  A
lookup on a nil interface value is a panic (crash). -/
def valueGet (v : Value) (key : String) : GoRes Value :=
  match v with
  | .goNil => .crash
  | .nil => .err "nil has no properties"
  | .bool _ => .err "booleans have no properties"
  | .num _ => .err "numbers have no properties"
  | .str _ =>
      match StringPrototype key with
      | some tag => .ok (.builtin tag .goNil)
      | none => .err ("string has no property \"" ++ key ++ "\"")
  | .list _ =>
      match ListPrototype key with
      | some tag => .ok (.builtin tag .goNil)
      | none => .err ("list has no property \"" ++ key ++ "\"")
  | .obj members =>
      match lookupStr members key with
      | some member => .ok member
      | none =>
          match ObjectPrototype key with
          | some tag => .ok (.builtin tag .goNil)
          | none => .err ("no property found with name \"" ++ key ++ "\"")
  | .fn .. => .err "functions have no properties"
  | .builtin .. => .err "functions have no properties"
  | .varV .. => .err "variables have no properties"

/-- Propagate a normal result through a function. -/
def GoRes.mapR {α β : Type} (f : α → β) : GoRes α → GoRes β
  | .ok a => .ok (f a)
  | .err m => .err m
  | .crash => .crash

/-- The Go conversion int(f) of a float64 to an int truncates toward
zero; on the rational model that is the floor for non-negative values
and the ceiling for negative ones. -/
def goTruncToInt (q : ℚ) : Int := if 0 ≤ q then ⌊q⌋ else ⌈q⌉

/-- The body of the at member of the List prototype (values.go): the
index is the Number argument converted to int; an index at or past the
length is reported through the error return (the runtime error path);
the check does not cover negative indices, for which the following
slice access panics.  The hexadecimal index formatting inside the error
text is abstracted away. -/
def listAtGo (items : List Value) (q : ℚ) : GoRes Value :=
  let index := goTruncToInt q
  if (items.length : Int) ≤ index then .err "list index out of range"
  else if index < 0 then .crash
  else
    match items[index.toNat]? with
    | some v => .ok v
    | none => .crash

/-- The body of the format builtin (vm.go): each percent sign in the
template is replaced by the display string of the next argument; a
percent sign without a remaining argument indexes past the argument
list and panics.  The byte-level template scan of the source is
rendered as a character scan. -/
def formatGo (template : List Char) (vals : List Value) : GoRes String :=
  match template with
  | [] => .ok ""
  | c :: rest =>
      if c = '%' then
        match vals with
        | [] => .crash
        | v :: vrest =>
            match valueString v with
            | none => .crash
            | some s => (formatGo rest vrest).mapR (fun t => s ++ t)
      else (formatGo rest vals).mapR (fun t => String.singleton c ++ t)

mutual

/-- String of signature.go on signatures: the human-readable form used
by the type builtin.  none models the panics of the source: the method
on a nil interface signature, and the unimplemented ObjectSignature
case. -/
def sigString : TypeSig → Option String
  | .null => none
  | .nilT => some "nil"
  | .strT => some "string"
  | .numT => some "number"
  | .boolT => some "boolean"
  | .listT c => do
      let cs ← sigString c
      pure ("list[" ++ cs ++ "]")
  | .objT _ => none
  | .fnT tin out => do
      let ins ← sigStringList tin
      let body := "func(" ++ ins ++ ")"
      match out.typeOf with
      | none => none
      | some t =>
          if t = .tNil then pure body
          else do
            let os ← sigString out
            pure (body ++ " " ++ os)
  | .anyT => some "any"
  | .compT a b => do
      let sa ← sigString a
      let sb ← sigString b
      pure (sa ++ "|" ++ sb)
  | .innerT => some "inner"

/-- The parameter loop of FunctionSignature.String. -/
def sigStringList : List TypeSig → Option String
  | [] => some ""
  | [t] => sigString t
  | t :: rest => do
      let s1 ← sigString t
      let s2 ← sigStringList rest
      pure (s1 ++ ", " ++ s2)

end

/-- The first UTF-8 byte of a string, the quantity the byte builtin
extracts; panics (none) on the empty string. -/
def firstByteOf (s : String) : Option Nat :=
  match s.toUTF8.data.toList with
  | [] => none
  | b :: _ => some b.toNat

/-- The Go conversion byte(f) of a float64; for the in-range values the
builtins are ever given this is the truncation, reduced modulo 256
(conversions of out-of-range floats are not defined by Go and do not
arise in any property treated here). -/
def goByteOfNum (q : ℚ) : Nat := ((goTruncToInt q) % 256).toNat

/-- Application of a builtin function body with no running VM attached,
covering every builtin whose Go body neither re-enters the interpreter
nor mutates its receiver in place nor ends the process.  none marks the
remaining ones (map and reduce re-enter VM.Call, append and set mutate
their receiver, exit terminates the process); their in-place effects
are modelled separately on the heap model below.  parent is the this
value (a nil interface when absent). -/
def builtinApplyPure (tag : BuiltinTag) (parent : Value) (args : List Value) :
    Option (GoRes Value) :=
  match tag with
  -- write and print send their argument to standard output, dropped
  -- here, and return a nil interface Value.
  | .writeB =>
      match args with
      | v :: _ => match valueString v with
                  | none => some .crash
                  | some _ => some (.ok .goNil)
      | [] => some .crash
  | .printB =>
      match args with
      | v :: _ => match valueString v with
                  | none => some .crash
                  | some _ => some (.ok .goNil)
      | [] => some .crash
  | .formatB =>
      match args with
      | .str template :: .list vals :: _ =>
          some ((formatGo template.toList vals).mapR Value.str)
      | _ :: _ :: _ => some .crash
      | _ => some .crash
  | .charB =>
      match args with
      | .num q :: _ => some (.ok (.str (String.singleton (Char.ofNat (goByteOfNum q)))))
      | _ :: _ => some .crash
      | [] => some .crash
  | .byteB =>
      match args with
      | .str s :: _ =>
          match firstByteOf s with
          | some b => some (.ok (.num (b : ℚ)))
          | none => some .crash
      | _ :: _ => some .crash
      | [] => some .crash
  | .assertEqB =>
      match args with
      | a :: b :: _ =>
          match valueEquals a b with
          | none => some .crash
          | some true => some (.ok .nil)
          | some false => some (.err "assertion failed")
      | _ => some .crash
  | .assertNotEqB =>
      match args with
      | a :: b :: _ =>
          match valueEquals a b with
          | none => some .crash
          | some true => some (.err "assertion failed")
          | some false => some (.ok .nil)
      | _ => some .crash
  | .strB =>
      match args with
      | v :: _ =>
          match valueString v with
          | some s => some (.ok (.str s))
          | none => some .crash
      | [] => some .crash
  | .typeB =>
      match args with
      | v :: _ =>
          match SignatureOf v with
          | none => some .crash
          | some sig =>
              match sigString sig with
              | some s => some (.ok (.str s))
              | none => some .crash
      | [] => some .crash
  | .exitB => none
  -- split scans the receiver, but its final GoToValue(out) is applied
  -- to a Go slice of strings, a type GoToValue has no case for: the
  -- call panics unconditionally once the casts succeed.
  | .splitP =>
      match parent, args with
      | .str _, .str _ :: _ => some .crash
      | _, _ => some .crash
  | .strLengthP =>
      match parent with
      | .str s => some (.ok (.num (s.utf8ByteSize : ℚ)))
      | _ => some .crash
  | .atP =>
      match parent, args with
      | .list items, .num q :: _ => some (listAtGo items q)
      | _, _ => some .crash
  | .listLengthP =>
      match parent with
      | .list items => some (.ok (.num (items.length : ℚ)))
      | _ => some .crash
  | .appendP => none
  | .mapP => none
  | .reduceP => none
  | .objSetP => none

/-- The DefaultGlobals table of vm.go, by name. -/
def DefaultGlobals : String → Option BuiltinTag
  | "write" => some .writeB
  | "print" => some .printB
  | "format" => some .formatB
  | "char" => some .charB
  | "byte" => some .byteB
  | "assertEq" => some .assertEqB
  | "assertNotEq" => some .assertNotEqB
  | "str" => some .strB
  | "type" => some .typeB
  | "exit" => some .exitB
  | _ => none

/-- BinaryOperation of nodes.go. -/
inductive BinOp where
  | addition
  | subtraction
  | multiplication
  | division
  | andOp
  | orOp
  | equality
  | inequality
  | less
  | greater
  | lessEqual
  | greaterEqual
deriving DecidableEq

/-- UnaryOperation of nodes.go. -/
inductive UnOp where
  | negate
  | notOp
deriving DecidableEq

/-- The AST of nodes.go.  Source positions, which only feed error
formatting, are dropped.  The content field of a list node is the
declared contents signature, the nil interface (null) when absent. -/
inductive Node where
  | strN (value : String)
  | numN (value : ℚ)
  | refN (name : String)
  | boolN (value : Bool)
  | nilN
  | listN (items : List Node) (content : TypeSig)
  | binN (op : BinOp) (left right : Node)
  | unN (op : UnOp) (value : Node)
  | blockN (stmts : List Node)
  | condN (condition thenDo : Node) (otherwise : Option Node)
  | loopN (condition body : Node)
  | assignN (name : String) (value : Node) (declare : Bool)
  | callN (source : Node) (args : List Node) (keep : Bool)
  | funcN (name : String) (params : List (String × TypeSig)) (yield : TypeSig) (logic : Node)
  | retN (value : Node)
  | accessN (source : Node) (property : String)
  | bpN

mutual

/-- isTreeConstant of compiler.go: whether a tree is predictable at
compile time.  Literals are constant; lists, binaries and calls are
constant when their parts are; blocks, conditionals, loops,
assignments, functions, returns, accesses, breakpoints and references
are not.  A unary node is in neither case list of the source switch and
falls to the panicking default branch, modelled by none. -/
def isTreeConstant : Node → Option Bool
  | .strN _ => some true
  | .numN _ => some true
  | .boolN _ => some true
  | .nilN => some true
  | .listN items _ => isTreeConstantList items
  | .binN _ l r =>
      match isTreeConstant l with
      | some true => isTreeConstant r
      | other => other
  | .callN source args _ =>
      match isTreeConstantList args with
      | some true => isTreeConstant source
      | other => other
  | .blockN _ => some false
  | .condN .. => some false
  | .loopN .. => some false
  | .assignN .. => some false
  | .funcN .. => some false
  | .retN _ => some false
  | .accessN .. => some false
  | .bpN => some false
  | .refN _ => some false
  | .unN .. => none

/-- The item/argument loop of isTreeConstant: stops at the first
non-constant item. -/
def isTreeConstantList : List Node → Option Bool
  | [] => some true
  | x :: xs =>
      match isTreeConstant x with
      | some true => isTreeConstantList xs
      | other => other

end

mutual

/-- compute of compiler.go: the compile-time evaluator for constant
trees.  Results: ok is the folded value (the nil interface when the
call source is not a Constant builtin), err a CompilerError, crash a Go
panic (the unconditional panic of the default branch included). -/
def compute : Node → GoRes Value
  | .strN s => .ok (.str s)
  | .numN q => .ok (.num q)
  | .boolN b => .ok (.bool b)
  | .nilN => .ok .nil
  | .listN items _ => (computeItems items).mapR Value.list
  -- The unary case of the source casts the operand to a NumberValue and
  -- negates it whatever the unary operation is.
  | .unN _ v =>
      match compute v with
      | .ok (.num q) => .ok (.num (-q))
      | .ok _ => .crash
      | .err m => .err m
      | .crash => .crash
  | .binN op l r => computeBinary op l r
  | .callN source args _ =>
      match compute source with
      | .err m => .err m
      | .crash => .crash
      | .ok sv =>
          match sv with
          | .builtin tag parent =>
              if builtinIsConstant tag then
                match computeArgs args with
                | .err m => .err m
                | .crash => .crash
                | .ok vals =>
                    -- args array is allocated at the arity of the
                    -- signature; extra source arguments overrun it,
                    -- missing ones stay nil.
                    match builtinSig tag with
                    | .fnT tin _ =>
                        if vals.length > tin.length then .crash
                        else
                          let padded := vals ++ List.replicate (tin.length - vals.length) .goNil
                          -- the builtin body runs with a nil VM and a nil parent
                          match builtinApplyPure tag .goNil padded with
                          | some r => r
                          | none => .crash
                    | _ => .crash
              else .ok .goNil
          | _ => .ok .goNil
  | _ => .crash
termination_by n => 2 * sizeOf n
decreasing_by
  all_goals simp_wf
  all_goals omega

/-- The item loop of the list case of compute. -/
def computeItems : List Node → GoRes (List Value)
  | [] => .ok []
  | x :: xs =>
      match compute x with
      | .err m => .err m
      | .crash => .crash
      | .ok v => (computeItems xs).mapR (fun vs => v :: vs)
termination_by l => 2 * sizeOf l
decreasing_by
  all_goals simp_wf
  all_goals omega

/-- The argument loop of the call case of compute. -/
def computeArgs : List Node → GoRes (List Value)
  | [] => .ok []
  | x :: xs =>
      match compute x with
      | .err m => .err m
      | .crash => .crash
      | .ok v => (computeArgs xs).mapR (fun vs => v :: vs)
termination_by l => 2 * sizeOf l
decreasing_by
  all_goals simp_wf
  all_goals omega

/-- computeBinary of compiler.go.  The operand type equality check and
the per-operator type checks reject with errors; the evaluation then
runs on the checked variants.  Two transcription notes, both preserved
from the source: the or case computes the conjunction of its operands
(compiler.go line 1143), and the list addition case hands a Go slice of
Values to GoToValue, which has no case for it and panics. -/
def computeBinary (op : BinOp) (nl nr : Node) : GoRes Value :=
  match compute nl with
  | .err m => .err m
  | .crash => .crash
  | .ok l =>
      match compute nr with
      | .err m => .err m
      | .crash => .crash
      | .ok r =>
          match l.typeOf, r.typeOf with
          | some tl, some tr =>
              if tl ≠ tr then .err "cannot perform binary operation on different types"
              else if (op = .addition ∧ tl ≠ .stringValue ∧ tl ≠ .numberValue ∧ tl ≠ .listValue) then
                .err "cannot add values of this type"
              else if ((op = .subtraction ∨ op = .multiplication ∨ op = .division ∨
                        op = .less ∨ op = .greater ∨ op = .lessEqual ∨ op = .greaterEqual) ∧
                       tl ≠ .numberValue) then
                .err "cannot do binary operation on non-number type"
              else if ((op = .andOp ∨ op = .orOp) ∧ tl ≠ .boolValue) then
                .err "cannot do binary operation on non-boolean type"
              else
                match op with
                | .addition =>
                    match l, r with
                    | .num a, .num b => .ok (.num (a + b))
                    | .str a, .str b => .ok (.str (a ++ b))
                    | .list _, .list _ => .crash
                    | _, _ => .crash
                | .subtraction =>
                    match l, r with
                    | .num a, .num b => .ok (.num (a - b))
                    | _, _ => .crash
                | .multiplication =>
                    match l, r with
                    | .num a, .num b => .ok (.num (a * b))
                    | _, _ => .crash
                | .division =>
                    match l, r with
                    | .num a, .num b => .ok (.num (a / b))
                    | _, _ => .crash
                | .andOp =>
                    match l, r with
                    | .bool a, .bool b => .ok (.bool (a && b))
                    | _, _ => .crash
                | .orOp =>
                    match l, r with
                    | .bool a, .bool b => .ok (.bool (a && b))
                    | _, _ => .crash
                | .equality =>
                    match valueEquals l r with
                    | some b => .ok (.bool b)
                    | none => .crash
                | .inequality =>
                    match valueEquals l r with
                    | some b => .ok (.bool (¬ b))
                    | none => .crash
                | .less =>
                    match l, r with
                    | .num a, .num b => .ok (.bool (a < b))
                    | _, _ => .crash
                | .greater =>
                    match l, r with
                    | .num a, .num b => .ok (.bool (a > b))
                    | _, _ => .crash
                | .lessEqual =>
                    match l, r with
                    | .num a, .num b => .ok (.bool (a ≤ b))
                    | _, _ => .crash
                | .greaterEqual =>
                    match l, r with
                    | .num a, .num b => .ok (.bool (a ≥ b))
                    | _, _ => .crash
          | _, _ => .crash
termination_by 2 * (sizeOf nl + sizeOf nr) + 1
decreasing_by
  all_goals simp_wf
  all_goals omega

end

/-- getVarSignature of compiler.go: the globals table is consulted
first (its entries are builtins, whose SignatureOf is their declared
signature), then the compiler symbol stack top-down.  locals is the
symbol stack with its top first. -/
def getVarSignature (locals : List (String × TypeSig)) (name : String) : GoRes TypeSig :=
  match DefaultGlobals name with
  | some tag =>
      match SignatureOf (.builtin tag .goNil) with
      | some s => .ok s
      | none => .crash
  | none =>
      match lookupStr locals name with
      | some sig => .ok sig
      | none => .err ("variable not defined: " ++ name)

mutual

/-- deduceSignature of compiler.go: the static type of an expression
tree under a compiler symbol stack (top first).  Error messages are
abbreviated to stable prefixes; crash models the panics a nil interface
signature can cause inside Matches. -/
def deduceSignature (locals : List (String × TypeSig)) (tree : Node) : GoRes TypeSig :=
  match tree with
  | .strN _ => .ok .strT
  | .numN _ => .ok .numT
  | .refN name => getVarSignature locals name
  | .boolN _ => .ok .boolT
  | .nilN => .ok .nilT
  | .listN items content =>
      match deduceListItems locals items content with
      | .err m => .err m
      | .crash => .crash
      | .ok contents =>
          if contents.isNull then .err "cannot deduce content type"
          else .ok (.listT contents)
  | .binN op l r =>
      match deduceSignature locals l with
      | .err m => .err m
      | .crash => .crash
      | .ok ls =>
          match deduceSignature locals r with
          | .err m => .err m
          | .crash => .crash
          | .ok rs =>
              match TypeSig.matches ls rs with
              | none => .crash
              | some false => .err "cannot perform binary operation on different types"
              | some true =>
                  match ls.typeOf with
                  | none => .crash
                  | some lt =>
                      match op with
                      | .subtraction | .multiplication | .division =>
                          if lt ≠ .tNumber then .err "cannot perform binary operation on non-number type"
                          else .ok .numT
                      | .addition =>
                          match lt with
                          | .tString => .ok .strT
                          | .tNumber => .ok .numT
                          | .tList =>
                              match ls with
                              | .listT c => .ok (.listT c)
                              | _ => .crash
                          | _ => .err "cannot perform binary addition on this type"
                      | .andOp | .orOp =>
                          if lt ≠ .tBoolean then .err "cannot perform binary operation on non-boolean type"
                          else .ok .boolT
                      | .equality | .inequality => .ok .boolT
                      | .less | .greater | .lessEqual | .greaterEqual =>
                          if lt ≠ .tNumber then .err "cannot perform number comparison on non-number type"
                          else .ok .boolT
  | .accessN source property =>
      match deduceSignature locals source with
      | .err m => .err m
      | .crash => .crash
      | .ok sig =>
          match sig.typeOf with
          | none => .crash
          | some t =>
              match t with
              | .tString =>
                  match StringPrototype property with
                  | none => .err ("string has no property " ++ property)
                  | some tag =>
                      match SignatureOf (.builtin tag .goNil) with
                      | some s => .ok s
                      | none => .crash
              | .tList =>
                  match ListPrototype property with
                  | none => .err ("list has no property " ++ property)
                  | some tag =>
                      match SignatureOf (.builtin tag .goNil) with
                      | some s => .ok s
                      | none => .crash
              | .tObject =>
                  match ObjectPrototype property with
                  | some tag =>
                      match SignatureOf (.builtin tag .goNil) with
                      | some s => .ok s
                      | none => .crash
                  | none =>
                      match sig with
                      | .objT ms =>
                          match lookupStr ms property with
                          | some v => .ok v
                          | none => .err ("object has no property " ++ property)
                      | _ => .crash
              | _ => .err "cannot access property from value of this type"
  | .callN source args _ =>
      match deduceSignature locals source with
      | .err m => .err m
      | .crash => .crash
      | .ok sig =>
          match sig.typeOf with
          | none => .crash
          | some t =>
              if t ≠ .tFunction then .err "cannot call value of this type"
              else
                match sig with
                | .fnT tins out =>
                    if args.length ≠ tins.length then .err "bad argument count"
                    else
                      -- the Inner sentinel resolves to the contents of a
                      -- list-typed access receiver (nil otherwise)
                      match
                        (match source with
                         | .accessN innerSrc _ =>
                             match deduceSignature locals innerSrc with
                             | .err m => GoRes.err m
                             | .crash => GoRes.crash
                             | .ok member =>
                                 match member with
                                 | .listT c => GoRes.ok c
                                 | _ => GoRes.ok .null
                         | _ => GoRes.ok TypeSig.null) with
                      | .err m => .err m
                      | .crash => .crash
                      | .ok innerType =>
                          match deduceCallArgs locals args tins innerType with
                          | .err m => .err m
                          | .crash => .crash
                          | .ok _ =>
                              match out.typeOf with
                              | none => .crash
                              | some ot =>
                                  if ot = .tInner then
                                    if innerType.isNull then .err "function source has no inner type"
                                    else .ok innerType
                                  else .ok out
                | _ => .crash
  | .funcN _ params yield _ => .ok (.fnT (params.map Prod.snd) yield)
  | .unN op value =>
      match deduceSignature locals value with
      | .err m => .err m
      | .crash => .crash
      | .ok sig =>
          match sig.typeOf with
          | none => .crash
          | some t =>
              match op with
              | .negate =>
                  if t ≠ .tNumber then .err "cannot perform negation on this type (must be number)"
                  else .ok .numT
              | .notOp =>
                  if t ≠ .tBoolean then .err "cannot perform negation on this type (must be boolean)"
                  else .ok .boolT
  | _ => .err "impossible to deduce signature"

/-- The contents-unification loop of the list case of deduceSignature:
the running contents starts as the declared contents (nil when absent)
and adopts the first item signature; later items must match it. -/
def deduceListItems (locals : List (String × TypeSig)) (items : List Node) (contents : TypeSig) :
    GoRes TypeSig :=
  match items with
  | [] => .ok contents
  | v :: rest =>
      match deduceSignature locals v with
      | .err m => .err m
      | .crash => .crash
      | .ok sig =>
          if contents.isNull then deduceListItems locals rest sig
          else
            match TypeSig.matches contents sig with
            | none => .crash
            | some true => deduceListItems locals rest contents
            | some false => .err "non-conforming item type"

/-- The argument type check loop of the call case of deduceSignature:
each argument signature, as receiver, must match the declared parameter
(with the Inner sentinel replaced by the receiver contents). -/
def deduceCallArgs (locals : List (String × TypeSig)) (args : List Node) (tins : List TypeSig)
    (innerType : TypeSig) : GoRes Unit :=
  match args, tins with
  | [], _ => .ok ()
  | a :: arest, tp :: trest =>
      match deduceSignature locals a with
      | .err m => .err m
      | .crash => .crash
      | .ok sig =>
          match tp.typeOf with
          | none => .crash
          | some tt =>
              let t2 := if tt = .tInner then innerType else tp
              if tt = .tInner ∧ innerType.isNull then .err "function source has no inner type"
              else
                match TypeSig.matches sig t2 with
                | none => .crash
                | some true => deduceCallArgs locals arest trest innerType
                | some false => .err "argument has wrong type signature"
  | _ :: _, [] => .crash

end

/-- The write cursor and bytecode of the compiler (the fields of
Compiler that add, addU16 and putU16 touch).  Pos is a signed int in
the source; the compiler never moves the cursor below zero, and the
cursor is modelled as a natural number. -/
structure CState where
  bytecode : List Nat
  ip : Nat
deriving DecidableEq

/-- add of compiler.go: extend the bytecode with zero bytes until the
cursor is addressable, write the instruction there, advance by one. -/
def cAdd (c : CState) (instruction : Nat) : CState :=
  let bc := c.bytecode ++ List.replicate (c.ip + 1 - c.bytecode.length) 0
  { bytecode := bc.set c.ip instruction, ip := c.ip + 1 }

/-- addU16 of compiler.go: the high byte then the low byte (big
endian); on a uint16 value v the two Go expressions v shifted right by
eight and v masked with 0xff are v / 256 and v % 256. -/
def addU16 (c : CState) (v : Nat) : CState :=
  cAdd (cAdd c (v / 256)) (v % 256)

/-- putU16 of compiler.go: save the cursor, move it to p, write the two
bytes there, restore the cursor. -/
def putU16 (c : CState) (p : Nat) (v : Nat) : CState :=
  let start := c.ip
  let c2 := addU16 { c with ip := p } v
  { c2 with ip := start }

/-- NextU16 of vm.go, read at an absolute position: the first byte
shifted left by eight, bit-or the second byte; on byte values below 256
that is this big-endian recombination. -/
def NextU16At (bc : List Nat) (p : Nat) : Option Nat := do
  let b1 ← bc[p]?
  let b2 ← bc[p + 1]?
  pure (b1 * 256 + b2)

/-- The compiler state that resolveImport and Compile of compiler.go
thread: the resolved-imports list, the import file stack (top last, as
in the array of the source), and — for the purposes of this model — the
trace of paths whose statements were compiled into the chunk, in
order.  Tokenizing and parsing of an imported source are abstracted:
a program is known by its path and carries the list of its import
paths. -/
structure ICtx where
  imports : List String
  fileStack : List String
  compiled : List String
deriving DecidableEq

mutual

/-- Compile of compiler.go, restricted to its import-walking skeleton:
push the path on the file stack, resolve each import in order, compile
the statements of the program (recorded in the trace), pop the file
stack.  prog maps a path to its import list, isSame is the resolver
identity; fuel bounds the recursion (none = fuel ran out). -/
def CompileGo (prog : String → List String) (isSame : String → String → Bool) :
    Nat → ICtx → String → Option (Except String ICtx)
  | 0, _, _ => none
  | fuel + 1, st, path =>
      let st1 : ICtx := { st with fileStack := st.fileStack ++ [path] }
      match resolveImportList prog isSame fuel st1 (prog path) with
      | none => none
      | some (.error e) => some (.error e)
      | some (.ok st2) =>
          let st3 : ICtx := { st2 with compiled := st2.compiled ++ [path] }
          some (.ok { st3 with fileStack := st3.fileStack.dropLast })

/-- The import loop of Compile. -/
def resolveImportList (prog : String → List String) (isSame : String → String → Bool) :
    Nat → ICtx → List String → Option (Except String ICtx)
  | _, st, [] => some (.ok st)
  | 0, _, _ :: _ => none
  | fuel + 1, st, p :: rest =>
      match resolveImport prog isSame fuel st p with
      | none => none
      | some (.error e) => some (.error e)
      | some (.ok st2) => resolveImportList prog isSame fuel st2 rest

/-- resolveImport of compiler.go: skip if the path is already in the
resolved-imports list (nothing in the source ever appends to that
list); fail on a path present in the file stack (recursion); otherwise
resolve, tokenize, parse and compile the imported program. -/
def resolveImport (prog : String → List String) (isSame : String → String → Bool) :
    Nat → ICtx → String → Option (Except String ICtx)
  | 0, _, _ => none
  | fuel + 1, st, path =>
      if st.imports.any (fun i => isSame path i) then some (.ok st)
      else if st.fileStack.any (fun f => isSame path f) then some (.error "recursive imports")
      else CompileGo prog isSame fuel st path

end

/-- The instruction bytes of vm.go, in declaration order. -/
def InstructionReturn : Nat := 0

def InstructionPop : Nat := 1

def InstructionAdd : Nat := 2

def InstructionSub : Nat := 3

def InstructionMul : Nat := 4

def InstructionDiv : Nat := 5

def InstructionNegate : Nat := 6

def InstructionEquals : Nat := 7

def InstructionNotEqual : Nat := 8

def InstructionNot : Nat := 9

def InstructionLess : Nat := 10

def InstructionLessOrEqual : Nat := 11

def InstructionGreater : Nat := 12

def InstructionGreaterOrEqual : Nat := 13

def InstructionAccessProperty : Nat := 14

def InstructionCall : Nat := 15

def InstructionDescend : Nat := 16

def InstructionAscend : Nat := 17

def InstructionJump : Nat := 18

def InstructionJumpFalse : Nat := 19

def InstructionLoop : Nat := 20

def InstructionGetLocal : Nat := 21

def InstructionSetLocal : Nat := 22

def InstructionDeclareLocal : Nat := 23

def InstructionGetGlobal : Nat := 24

def InstructionSetGlobal : Nat := 25

def InstructionStringConversion : Nat := 26

def InstructionStringConcatenation : Nat := 27

def InstructionSwap : Nat := 28

def InstructionAnd : Nat := 29

def InstructionOr : Nat := 30

def InstructionConstant : Nat := 31

def InstructionTrue : Nat := 32

def InstructionFalse : Nat := 33

def InstructionNil : Nat := 34

def InstructionNewList : Nat := 35

def InstructionAppend : Nat := 36

def InstructionFormList : Nat := 37

def InstructionConcatLists : Nat := 38

def InstructionBreakpoint : Nat := 39

/-- Chunk of vm.go: bytecode plus constant pool. -/
structure Chunk where
  bytecode : List Nat
  constants : List Value

/-- Call of vm.go: the frame pushed by the Call instruction. -/
structure Frame where
  chunk : Chunk
  ip : Int
  stackEnd : Int
  variableEnd : Int
  scope : Int

/-- VM of vm.go.  The value stack is the list of live slots, bottom
first, so that its length is the Current index of the bounded stack of
the source; the call stack likewise holds its top last.  Slots of the
backing array beyond Current (stale values in Go) are not modelled; the
step function refuses (none) the unreachable states that would read
them. -/
structure VMState where
  chunk : Chunk
  ip : Int
  scope : Int
  globals : List (String × Value)
  variableEnd : Int
  stack : List Value
  callStack : List Frame

/-- Pop of the bounded stack: the top value and the remaining stack;
none is the underflow panic. -/
def stackPop (s : List Value) : Option (Value × List Value) :=
  match s.getLast? with
  | some v => some (v, s.dropLast)
  | none => none

/-- n pops in a row, as the argument-collection loops of the source
perform them: the popped block in stack order (deepest first) and the
remaining stack. -/
def stackPopN (s : List Value) (n : Nat) : Option (List Value × List Value) :=
  if s.length < n then none
  else some (s.drop (s.length - n), s.take (s.length - n))

/-- Pop a NumberValue; a wrong variant is a failed type assertion. -/
def popNum (s : List Value) : Option (ℚ × List Value) :=
  match stackPop s with
  | some (.num q, rest) => some (q, rest)
  | _ => none

/-- Pop a BoolValue; a wrong variant is a failed type assertion. -/
def popBool (s : List Value) : Option (Bool × List Value) :=
  match stackPop s with
  | some (.bool b, rest) => some (b, rest)
  | _ => none

/-- Pop a StringValue; a wrong variant is a failed type assertion. -/
def popStr (s : List Value) : Option (String × List Value) :=
  match stackPop s with
  | some (.str t, rest) => some (t, rest)
  | _ => none

/-- Pop a ListValue; a wrong variant is a failed type assertion. -/
def popList (s : List Value) : Option (List Value × List Value) :=
  match stackPop s with
  | some (.list items, rest) => some (items, rest)
  | _ => none

/-- GetConstant of vm.go; an index past the pool is a slice panic. -/
def GetConstant (c : Chunk) (id : Nat) : Option Value := c.constants[id]?

/-- A byte of the bytecode at an absolute signed position; a negative
position is a slice panic. -/
def readByteAt (c : Chunk) (ip : Int) : Option Nat :=
  if 0 ≤ ip then c.bytecode[ip.toNat]? else none

/-- HasNext of vm.go. -/
def VMhasNext (s : VMState) : Bool := s.ip < (s.chunk.bytecode.length : Int)

/-- NextByte of vm.go: read the byte under the cursor and advance; none
is the no-more-instructions panic (or the slice panic of a negative
cursor). -/
def vmNextByte (s : VMState) : Option (Nat × VMState) :=
  if s.ip < (s.chunk.bytecode.length : Int) then
    match readByteAt s.chunk s.ip with
    | some b => some (b, { s with ip := s.ip + 1 })
    | none => none
  else none

/-- NextU16 of vm.go: two NextByte reads recombined big-endian (high
byte shifted left by eight, bit-or — on bytes, times 256 plus). -/
def nextU16 (s : VMState) : Option (Nat × VMState) := do
  let (b1, s1) ← vmNextByte s
  let (b2, s2) ← vmNextByte s1
  pure (b1 * 256 + b2, s2)

/-- ReadConstant of vm.go: NextByte then GetConstant. -/
def vmReadConstant (s : VMState) : Option (Value × VMState) := do
  let (b, s1) ← vmNextByte s
  let v ← GetConstant s1.chunk b
  pure (v, s1)

/-- getVar of vm.go, as the index of the found variable slot: scan the
slots below variableEnd from the top down, skipping (with the checked
assertion of the source) any slot that is not a Variable, and stop at
the first Variable of the wanted name. -/
def getVarIdxAux (stack : List Value) : Nat → String → Option Nat
  | 0, _ => none
  | i + 1, name =>
      match stack[i]? with
      | some (.varV n _ _) =>
          if n = name then some i else getVarIdxAux stack i name
      | _ => getVarIdxAux stack i name

/-- getVar of vm.go (index form), entered at variableEnd. -/
def getVarIdx (stack : List Value) (ve : Int) (name : String) : Option Nat :=
  getVarIdxAux stack ve.toNat name

/-- addVar of vm.go: advance variableEnd and push the wrapper. -/
def addVar (s : VMState) (name : String) (value : Value) : VMState :=
  { s with variableEnd := s.variableEnd + 1,
           stack := s.stack ++ [.varV name value s.scope] }

/-- The loop of purgeVars of vm.go: while variableEnd is positive and
the slot below it is a Variable of a scope above the current one, pop
the stack top and decrement variableEnd.  The loop inspects the slot at
variableEnd minus one but pops at the stack top, exactly as the source
does.  The unchecked cast of the source panics (none) when the
inspected slot is not a Variable. -/
def purgeVarsLoop (scope : Int) : Nat → List Value → Int → Option (List Value × Int)
  | 0, stack, ve => some (stack, ve)
  | n + 1, stack, ve =>
      if 0 < ve then
        match stack[(ve - 1).toNat]? with
        | some (.varV _ _ vscope) =>
            if vscope > scope then purgeVarsLoop scope n stack.dropLast (ve - 1)
            else some (stack, ve)
        | _ => none
      else some (stack, ve)

/-- purgeVars of vm.go. -/
def purgeVars (s : VMState) : Option VMState :=
  match purgeVarsLoop s.scope s.variableEnd.toNat s.stack s.variableEnd with
  | some (st, ve) => some { s with stack := st, variableEnd := ve }
  | none => none

/-- The parameter-binding loop of the Call instruction: each of the top
arity slots is rewrapped in place as a Variable carrying the matching
parameter name at the current scope; none is the slice panic of a stack
shorter than the arity. -/
def wrapParams (stack : List Value) (params : List (String × TypeSig)) (scope : Int) :
    Option (List Value) :=
  if stack.length < params.length then none
  else some (stack.take (stack.length - params.length) ++
    (params.zip (stack.drop (stack.length - params.length))).map
      (fun pv => .varV pv.1.1 pv.2 scope))

/-- Replace (or install) a key in the globals map. -/
def setAssoc (l : List (String × Value)) (k : String) (v : Value) : List (String × Value) :=
  match l with
  | [] => [(k, v)]
  | (k2, w) :: rest => if k2 = k then (k2, v) :: rest else (k2, w) :: setAssoc rest k v

/-- The Call instruction of vm.go, entered after the callee pop is
about to happen: a source-level callee pushes a frame, rewraps its
argument slots as Variables (binding this when a receiver is present)
and moves variableEnd to the stack top; a builtin callee pops its
declared arity, applies the body, and pushes the result. -/
def applyCall (s : VMState) : Option (VMState × Bool) := do
    let (v, st1) ← stackPop s.stack
    match v with
    | .fn _ params _ code consts parent =>
        -- push the frame (stackEnd is Current after the callee pop,
        -- minus the arity), rewrap the argument slots as Variables,
        -- declare this when a receiver is bound, set variableEnd to
        -- the stack top, switch chunk, reset the cursor
        let fr : Frame :=
          { chunk := s.chunk, ip := s.ip,
            stackEnd := (st1.length : Int) - params.length,
            variableEnd := s.variableEnd, scope := s.scope }
        match wrapParams st1 params s.scope with
        | none => none
        | some st2 =>
            let s2 : VMState :=
              { s with stack := st2, callStack := s.callStack ++ [fr] }
            let s3 : VMState :=
              match parent with
              | .goNil => s2
              | p => addVar s2 "this" p
            pure ({ s3 with variableEnd := (s3.stack.length : Int),
                            chunk := { bytecode := code, constants := consts },
                            ip := 0 }, true)
    | .builtin tag parent =>
        match builtinSig tag with
        | .fnT tin _ => do
            let (args, st2) ← stackPopN st1 tin.length
            match builtinApplyPure tag parent args with
            | none => none
            | some (.err _) => none
            | some .crash => none
            | some (.ok res) => pure ({ s with stack := st2 ++ [res] }, true)
        | _ => none
    | _ => none


/-- The dispatch body of Next of vm.go, entered after the instruction
byte has been read (the cursor already past it).  The result pairs the
new state with the continue flag Next returns; none covers every fatal
outcome: panics (failed casts, stack underflow, invalid bytecode) and
the log.Fatal exits of vm.error (runtime errors, undefined variables,
calling a non-function), as well as the builtin bodies left unmodelled
in builtinApplyPure.  In-place mutation seen through aliases (Append on
a shared list, the Parent field written into the shared prototype entry
by AccessProperty) is outside this pure state; the heap model below
covers the aliasing behaviour of containers. -/
def stepInstr (s : VMState) (b : Nat) : Option (VMState × Bool) :=
  if b = InstructionReturn then
    if s.callStack.length = 0 then some (s, false)
    else do
      let (v, st1) ← stackPop s.stack
      let c ← s.callStack.getLast?
      -- reset variableEnd, stack Current and scope, return to the
      -- calling position, purge, push the return value
      if 0 ≤ c.stackEnd ∧ c.stackEnd ≤ (st1.length : Int) then do
        let s2 : VMState :=
          { chunk := c.chunk, ip := c.ip, scope := c.scope, globals := s.globals,
            variableEnd := c.variableEnd, stack := st1.take c.stackEnd.toNat,
            callStack := s.callStack.dropLast }
        let s3 ← purgeVars s2
        pure ({ s3 with stack := s3.stack ++ [v] }, true)
      else none
  else if b = InstructionPop then do
    let (_, st1) ← stackPop s.stack
    pure ({ s with stack := st1 }, true)
  else if b = InstructionConstant then do
    let (v, s1) ← vmReadConstant s
    pure ({ s1 with stack := s1.stack ++ [v] }, true)
  else if b = InstructionAdd then do
    let (r, st1) ← popNum s.stack
    let (l, st2) ← popNum st1
    pure ({ s with stack := st2 ++ [.num (l + r)] }, true)
  else if b = InstructionSub then do
    let (r, st1) ← popNum s.stack
    let (l, st2) ← popNum st1
    pure ({ s with stack := st2 ++ [.num (l - r)] }, true)
  else if b = InstructionMul then do
    let (r, st1) ← popNum s.stack
    let (l, st2) ← popNum st1
    pure ({ s with stack := st2 ++ [.num (l * r)] }, true)
  else if b = InstructionDiv then do
    let (r, st1) ← popNum s.stack
    let (l, st2) ← popNum st1
    pure ({ s with stack := st2 ++ [.num (l / r)] }, true)
  else if b = InstructionNegate then do
    let (v, st1) ← popNum s.stack
    pure ({ s with stack := st1 ++ [.num (-v)] }, true)
  else if b = InstructionEquals then do
    -- the first pop is the receiver of Equals
    let (r, st1) ← stackPop s.stack
    let (l, st2) ← stackPop st1
    match valueEquals r l with
    | none => none
    | some eq => pure ({ s with stack := st2 ++ [.bool eq] }, true)
  else if b = InstructionNotEqual then do
    let (r, st1) ← stackPop s.stack
    let (l, st2) ← stackPop st1
    match valueEquals r l with
    | none => none
    | some eq => pure ({ s with stack := st2 ++ [.bool (¬ eq)] }, true)
  else if b = InstructionNot then do
    let (v, st1) ← popBool s.stack
    pure ({ s with stack := st1 ++ [.bool (¬ v)] }, true)
  else if b = InstructionAnd then do
    let (r, st1) ← popBool s.stack
    let (l, st2) ← popBool st1
    pure ({ s with stack := st2 ++ [.bool (l && r)] }, true)
  else if b = InstructionOr then do
    let (r, st1) ← popBool s.stack
    let (l, st2) ← popBool st1
    pure ({ s with stack := st2 ++ [.bool (l || r)] }, true)
  else if b = InstructionLess then do
    let (r, st1) ← popNum s.stack
    let (l, st2) ← popNum st1
    pure ({ s with stack := st2 ++ [.bool (decide (l < r))] }, true)
  else if b = InstructionLessOrEqual then do
    let (r, st1) ← popNum s.stack
    let (l, st2) ← popNum st1
    pure ({ s with stack := st2 ++ [.bool (decide (l ≤ r))] }, true)
  else if b = InstructionGreater then do
    let (r, st1) ← popNum s.stack
    let (l, st2) ← popNum st1
    pure ({ s with stack := st2 ++ [.bool (decide (l > r))] }, true)
  else if b = InstructionGreaterOrEqual then do
    let (r, st1) ← popNum s.stack
    let (l, st2) ← popNum st1
    pure ({ s with stack := st2 ++ [.bool (decide (l ≥ r))] }, true)
  else if b = InstructionCall then applyCall s
  else if b = InstructionJump then do
    let (n, s1) ← nextU16 s
    pure ({ s1 with ip := s1.ip + n }, true)
  else if b = InstructionLoop then do
    let (n, s1) ← nextU16 s
    pure ({ s1 with ip := s1.ip - n }, true)
  else if b = InstructionJumpFalse then do
    let (n, s1) ← nextU16 s
    let (c, st1) ← popBool s1.stack
    if ¬ c then pure ({ s1 with stack := st1, ip := s1.ip + n }, true)
    else pure ({ s1 with stack := st1 }, true)
  else if b = InstructionGetLocal then do
    let (nameV, s1) ← vmReadConstant s
    match nameV with
    | .str name =>
        match getVarIdx s1.stack s1.variableEnd name with
        | none => none
        | some i =>
            match s1.stack[i]? with
            | some (.varV _ value _) => pure ({ s1 with stack := s1.stack ++ [value] }, true)
            | _ => none
    | _ => none
  else if b = InstructionSetLocal then do
    let (value, st1) ← stackPop s.stack
    let (nameV, s1) ← vmReadConstant { s with stack := st1 }
    match nameV with
    | .str name =>
        match getVarIdx s1.stack s1.variableEnd name with
        | none => none
        | some i =>
            match s1.stack[i]? with
            | some (.varV vn _ vs) => do
                let cl ← valueClone value
                pure ({ s1 with stack := s1.stack.set i (.varV vn cl vs) }, true)
            | _ => none
    | _ => none
  else if b = InstructionDeclareLocal then do
    let (nameV, s1) ← vmReadConstant s
    match nameV with
    | .str name => do
        let (v, st1) ← stackPop s1.stack
        let cl ← valueClone v
        pure (addVar { s1 with stack := st1 } name cl, true)
    | _ => none
  else if b = InstructionGetGlobal then do
    let (nameV, s1) ← vmReadConstant s
    match nameV with
    | .str name =>
        -- a missing global indexes the map at an absent key and pushes
        -- the resulting nil interface Value
        match lookupStr s1.globals name with
        | some v => pure ({ s1 with stack := s1.stack ++ [v] }, true)
        | none => pure ({ s1 with stack := s1.stack ++ [.goNil] }, true)
    | _ => none
  else if b = InstructionSetGlobal then do
    let (nameV, s1) ← vmReadConstant s
    match nameV with
    | .str name => do
        let (v, st1) ← stackPop s1.stack
        pure ({ s1 with stack := st1, globals := setAssoc s1.globals name v }, true)
    | _ => none
  else if b = InstructionTrue then
    some ({ s with stack := s.stack ++ [.bool true] }, true)
  else if b = InstructionFalse then
    some ({ s with stack := s.stack ++ [.bool false] }, true)
  else if b = InstructionNil then
    some ({ s with stack := s.stack ++ [.nil] }, true)
  else if b = InstructionFormList then do
    let (n, s1) ← nextU16 s
    let (items, st1) ← stackPopN s1.stack n
    pure ({ s1 with stack := st1 ++ [.list items] }, true)
  else if b = InstructionNewList then
    some ({ s with stack := s.stack ++ [.list []] }, true)
  else if b = InstructionAppend then do
    let (value, st1) ← stackPop s.stack
    let (items, st2) ← popList st1
    pure ({ s with stack := st2 ++ [.list (items ++ [value])] }, true)
  else if b = InstructionConcatLists then do
    let (r, st1) ← popList s.stack
    let (l, st2) ← popList st1
    pure ({ s with stack := st2 ++ [.list (l ++ r)] }, true)
  else if b = InstructionDescend then
    some ({ s with scope := s.scope + 1 }, true)
  else if b = InstructionAscend then
    -- ascend of vm.go: decrement, panic below zero, purge
    let s1 : VMState := { s with scope := s.scope - 1 }
    if s1.scope < 0 then none
    else do
      let s2 ← purgeVars s1
      pure (s2, true)
  else if b = InstructionStringConversion then do
    let (v, st1) ← stackPop s.stack
    match valueString v with
    | none => none
    | some t => pure ({ s with stack := st1 ++ [.str t] }, true)
  else if b = InstructionStringConcatenation then do
    let (r, st1) ← popStr s.stack
    let (l, st2) ← popStr st1
    pure ({ s with stack := st2 ++ [.str (l ++ r)] }, true)
  else if b = InstructionSwap then do
    let (r, st1) ← stackPop s.stack
    let (l, st2) ← stackPop st1
    pure ({ s with stack := st2 ++ [r, l] }, true)
  else if b = InstructionAccessProperty then do
    let (source, st1) ← stackPop s.stack
    let (propV, s1) ← vmReadConstant { s with stack := st1 }
    match propV with
    | .str property =>
        match valueGet source property with
        | .err _ => none
        | .crash => none
        | .ok member =>
            -- a function member has its Parent field set to the
            -- receiver (in the source this writes into the shared
            -- prototype entry; the pure state carries the bound copy)
            match member with
            | .goNil => none
            | .fn n p y c k _ =>
                pure ({ s1 with stack := s1.stack ++ [.fn n p y c k source] }, true)
            | .builtin tag _ =>
                pure ({ s1 with stack := s1.stack ++ [.builtin tag source] }, true)
            | other =>
                pure ({ s1 with stack := s1.stack ++ [other] }, true)
    | _ => none
  else if b = InstructionBreakpoint then
    some (s, true)
  else none

/-- Next of vm.go: stop when the cursor is past the chunk, otherwise
read one instruction byte and dispatch. -/
def step (s : VMState) : Option (VMState × Bool) :=
  if ¬ VMhasNext s then some (s, false)
  else
    match vmNextByte s with
    | none => none
    | some (b, s1) => stepInstr s1 b

/-- n driver iterations of step, requiring every instruction along the
way to ask for more (the continue flag). -/
def stepN : Nat → VMState → Option VMState
  | 0, s => some s
  | n + 1, s =>
      match step s with
      | some (s1, true) => stepN n s1
      | _ => none

/-- The variableEnd partition of the value stack: the variable-region
bound is within the stack, every slot below it holds a Variable
wrapper, and every slot from it to the stack top holds a non-Variable
evaluation temporary. -/
def isVariableSlot : Value → Bool
  | .varV .. => true
  | _ => false

/-- The partition predicate, as an executable check on a VM state. -/
def partitionB (s : VMState) : Bool :=
  0 ≤ s.variableEnd && s.variableEnd ≤ (s.stack.length : Int) &&
  (s.stack.take s.variableEnd.toNat).all isVariableSlot &&
  (s.stack.drop s.variableEnd.toNat).all (fun v => ¬ isVariableSlot v)

/-!
The per-instruction well-typedness conditions under which the
variableEnd partition is preserved.  They render, instruction by
instruction, what holds at every dispatch of a well-typed program whose
calls and declarations are statement-shaped: an instruction that pops
untyped finds its operands among the temporaries, Call consumes the
whole temporary region (the mid-expression counterexample further down
shows the partition break when it does not), DeclareLocal wraps the
only temporary, Ascend
and the Return frame cut run on an empty temporary region, and pushed
constants, globals, variable contents and object members are not
Variable wrappers.
-/

/-- The number of temporary slots: stack top minus variableEnd. -/
def tempsOf (s : VMState) : Int := (s.stack.length : Int) - s.variableEnd

/-- A Variable slot does not itself wrap a Variable. -/
def slotInnerOk : Value → Bool
  | .varV _ w _ => ! isVariableSlot w
  | _ => true

/-- The members of an object are not Variable wrappers. -/
def objMembersOk : Value → Bool
  | .obj ms => ms.all (fun kv => ! isVariableSlot kv.2)
  | _ => true

/-- The elements of a list receiver are not Variable wrappers. -/
def parentListOk : Value → Bool
  | .list items => items.all (fun v => ! isVariableSlot v)
  | _ => true

/-- The statement-shape condition of the Call instruction: a
source-level callee together with its arguments is the entire temporary
region; a builtin callee has at least its declared arity of temporaries
below it and a list receiver free of Variable elements. -/
def callOK (s : VMState) : Bool :=
  match s.stack.getLast? with
  | some (.fn _ ps _ _ _ _) => decide ((s.stack.length : Int) = s.variableEnd + ps.length + 1)
  | some (.builtin tag parent) =>
      (match builtinSig tag with
       | .fnT tin _ => decide ((tin.length : Int) + 1 ≤ tempsOf s)
       | _ => true) && parentListOk parent
  | _ => true

/-- The per-instruction condition, checked on the state after the
opcode fetch (the state stepInstr receives). -/
def stepInstrOK (s : VMState) (b : Nat) : Bool :=
  if b = InstructionReturn then
    match s.callStack.getLast? with
    | none => true
    | some fr => decide (fr.variableEnd = fr.stackEnd) &&
        decide (fr.stackEnd ≤ s.variableEnd) && decide (1 ≤ tempsOf s)
  else if b = InstructionPop then decide (1 ≤ tempsOf s)
  else if b = InstructionConstant then s.chunk.constants.all (fun v => ! isVariableSlot v)
  else if b = InstructionEquals then decide (2 ≤ tempsOf s)
  else if b = InstructionNotEqual then decide (2 ≤ tempsOf s)
  else if b = InstructionCall then callOK s
  else if b = InstructionAscend then decide (tempsOf s = 0)
  else if b = InstructionGetLocal then s.stack.all slotInnerOk
  else if b = InstructionSetLocal then decide (1 ≤ tempsOf s)
  else if b = InstructionDeclareLocal then decide (tempsOf s = 1)
  else if b = InstructionGetGlobal then s.globals.all (fun kv => ! isVariableSlot kv.2)
  else if b = InstructionSetGlobal then decide (1 ≤ tempsOf s)
  else if b = InstructionStringConversion then decide (1 ≤ tempsOf s)
  else if b = InstructionSwap then decide (2 ≤ tempsOf s)
  else if b = InstructionFormList then
    match nextU16 s with
    | some (n, _) => decide ((n : Int) ≤ tempsOf s)
    | none => true
  else if b = InstructionAppend then decide (1 ≤ tempsOf s)
  else if b = InstructionAccessProperty then
    match s.stack.getLast? with
    | some v => objMembersOk v
    | none => true
  else true

/-- The condition of the instruction the cursor stands on (true when
the VM is about to halt or to fail). -/
def stepSafe (s : VMState) : Bool :=
  match vmNextByte s with
  | none => true
  | some (b, s1) => stepInstrOK s1 b

/-- stepSafe along an n-step run: every dispatched instruction
satisfies its condition. -/
def stepNSafe : Nat → VMState → Bool
  | 0, _ => true
  | n + 1, s =>
      stepSafe s &&
      (match step s with
       | some (s1, true) => stepNSafe n s1
       | _ => true)

/-!
Heap model of container values.  The pure Value type above gives each
list and object value-semantics, which is what most instructions see;
the source, however, holds lists and objects behind pointers, so that
Clone on declaration and on local-assignment is what keeps variables
from aliasing.  To reason about that, values are repeated here with
containers held by heap address: a ListValue is a reference into a heap
of containers, ObjectValue likewise.  Function values are omitted from
this model: Clone is deliberately shallow for them (spec design notes),
and the aliasing property under scrutiny is about containers.
-/

/-- A runtime value with containers by reference. -/
inductive HValue where
  | hnil
  | hbool (b : Bool)
  | hnum (q : ℚ)
  | hstr (s : String)
  | hlistRef (a : Nat)
  | hobjRef (a : Nat)
  | hvar (name : String) (value : HValue) (scope : Int)

/-- A heap cell: the body of a list or of an object. -/
inductive HContainer where
  | ls (items : List HValue)
  | ob (members : List (String × HValue))

/-- The heap: cell a of the list is the container at address a. -/
abbrev Heap := List HContainer

/-- The fully dereferenced shape of a value: what a variable observably
stores. -/
inductive PValue where
  | pnil
  | pbool (b : Bool)
  | pnum (q : ℚ)
  | pstr (s : String)
  | plist (items : List PValue)
  | pobj (members : List (String × PValue))
  | pvar (name : String) (value : PValue) (scope : Int)

mutual

/-- Clone of values.go on the heap model: deep for containers (each
list and object reachable through containers is re-allocated at a fresh
address), recursive through variable wrappers, a plain copy for the
scalar variants.  The fuel bounds the dereferencing depth (the Go code
would not terminate on a cyclic container either). -/
def hClone : Nat → Heap → HValue → Option (Heap × HValue)
  | 0, _, _ => none
  | fuel + 1, H, v =>
      match v with
      | .hnil => some (H, .hnil)
      | .hbool b => some (H, .hbool b)
      | .hnum q => some (H, .hnum q)
      | .hstr s => some (H, .hstr s)
      | .hvar n w sc => do
          let (H2, w2) ← hClone fuel H w
          pure (H2, .hvar n w2 sc)
      | .hlistRef a =>
          match H[a]? with
          | some (.ls items) => do
              let (H2, items2) ← hCloneList fuel H items
              pure (H2 ++ [.ls items2], .hlistRef H2.length)
          | _ => none
      | .hobjRef a =>
          match H[a]? with
          | some (.ob members) => do
              let (H2, members2) ← hCloneMembers fuel H members
              pure (H2 ++ [.ob members2], .hobjRef H2.length)
          | _ => none
termination_by fuel _ v => (fuel, sizeOf v)

/-- The item loop of ListValue.Clone on the heap model. -/
def hCloneList : Nat → Heap → List HValue → Option (Heap × List HValue)
  | 0, _, _ => none
  | _ + 1, H, [] => some (H, [])
  | fuel + 1, H, x :: xs => do
      let (H1, y) ← hClone (fuel + 1) H x
      let (H2, ys) ← hCloneList fuel H1 xs
      pure (H2, y :: ys)
termination_by fuel _ l => (fuel, sizeOf l)

/-- The member loop of ObjectValue.Clone on the heap model. -/
def hCloneMembers : Nat → Heap → List (String × HValue) → Option (Heap × List (String × HValue))
  | 0, _, _ => none
  | _ + 1, H, [] => some (H, [])
  | fuel + 1, H, (k, x) :: xs => do
      let (H1, y) ← hClone (fuel + 1) H x
      let (H2, ys) ← hCloneMembers fuel H1 xs
      pure (H2, (k, y) :: ys)
termination_by fuel _ l => (fuel, sizeOf l)

end

mutual

/-- The observable content of a value: dereference every container.
none when the fuel runs out (a cyclic heap) or an address is dead. -/
def hView : Nat → Heap → HValue → Option PValue
  | 0, _, _ => none
  | fuel + 1, H, v =>
      match v with
      | .hnil => some .pnil
      | .hbool b => some (.pbool b)
      | .hnum q => some (.pnum q)
      | .hstr s => some (.pstr s)
      | .hvar n w sc => do
          let p ← hView fuel H w
          pure (.pvar n p sc)
      | .hlistRef a =>
          match H[a]? with
          | some (.ls items) => do
              let ps ← hViewList fuel H items
              pure (.plist ps)
          | _ => none
      | .hobjRef a =>
          match H[a]? with
          | some (.ob members) => do
              let ps ← hViewMembers fuel H members
              pure (.pobj ps)
          | _ => none
termination_by fuel _ v => (fuel, sizeOf v)

def hViewList : Nat → Heap → List HValue → Option (List PValue)
  | 0, _, _ => none
  | _ + 1, _, [] => some []
  | fuel + 1, H, x :: xs => do
      let p ← hView (fuel + 1) H x
      let ps ← hViewList fuel H xs
      pure (p :: ps)
termination_by fuel _ l => (fuel, sizeOf l)

def hViewMembers : Nat → Heap → List (String × HValue) → Option (List (String × PValue))
  | 0, _, _ => none
  | _ + 1, _, [] => some []
  | fuel + 1, H, (k, x) :: xs => do
      let p ← hView (fuel + 1) H x
      let ps ← hViewMembers fuel H xs
      pure ((k, p) :: ps)
termination_by fuel _ l => (fuel, sizeOf l)

end

/-- DeclareLocal of vm.go on the heap model: the incoming value is
cloned and wrapped as a Variable of the current scope (the SetLocal
path stores the same clone into an existing wrapper). -/
def hDeclareLocal (fuel : Nat) (H : Heap) (v : HValue) (name : String) (scope : Int) :
    Option (Heap × HValue) :=
  match hClone fuel H v with
  | some (H2, c) => some (H2, .hvar name c scope)
  | none => none

/-- The append member of the List prototype on the heap model: the
in-place mutation this.Items = append(this.Items, v) at address a. -/
def hAppendAt (H : Heap) (a : Nat) (x : HValue) : Option Heap :=
  match H[a]? with
  | some (.ls items) => some (H.set a (.ls (items ++ [x])))
  | _ => none

/-- Whether every address mentioned in a value satisfies P. -/
def hvalRefsIn (P : Nat → Bool) : HValue → Bool
  | .hlistRef a => P a
  | .hobjRef a => P a
  | .hvar _ w _ => hvalRefsIn P w
  | _ => true

/-- Whether every address mentioned in a container satisfies P. -/
def contRefsIn (P : Nat → Bool) : HContainer → Bool
  | .ls items => items.all (hvalRefsIn P)
  | .ob members => members.all (fun kv => hvalRefsIn P kv.2)

/-- The P-closedness of a heap: a container at a P-address only
mentions P-addresses. -/
def heapClosedIn (P : Nat → Bool) (H : Heap) : Prop :=
  ∀ i, P i = true → ∀ c, H[i]? = some c → contRefsIn P c = true

/-- The constant tree false or true, an or of two boolean literals. -/
def orFoldTree : Node := .binN .orOp (.boolN false) (.boolN true)

/-- A VM whose chunk pushes false, pushes true and runs the Or
instruction — the bytecode the compiler would emit for the same operand
pair had it not folded the tree. -/
def orChunkVM : VMState :=
  { chunk := { bytecode := [InstructionFalse, InstructionTrue, InstructionOr], constants := [] },
    ip := 0, scope := 0, globals := [], variableEnd := 0, stack := [], callStack := [] }

/-- A VM about to run a Call in the middle of evaluating a larger
expression: the chunk loads the temporary 1, then the argument 2, then
a one-parameter function value, then calls it. -/
def midExprCallState : VMState :=
  { chunk := { bytecode := [InstructionConstant, 0, InstructionConstant, 1,
                            InstructionConstant, 2, InstructionCall],
               constants := [.num 1, .num 2,
                             .fn "f" [("x", .numT)] .nilT [InstructionReturn] [] .goNil] },
    ip := 0, scope := 0, globals := [], variableEnd := 0, stack := [], callStack := [] }

/-- A VM about to run a statement-level Call: the zero-argument callee
is the whole temporary region. -/
def stmtCallState : VMState :=
  { chunk := { bytecode := [InstructionCall], constants := [] },
    ip := 0, scope := 0, globals := [], variableEnd := 0,
    stack := [.fn "g" [] .nilT [InstructionReturn] [] .goNil], callStack := [] }

/-- The Return rule in the words of the specification: if the call
stack is empty, halt; otherwise pop the return value, pop a Call frame,
restore variableEnd, set the stack top to the frame pre-call stack top,
restore scope, restore ip and chunk, run purgeVars, then push the
return value.  (Setting the stack top below zero or above the live
region would read unmodelled stale slots, refused as in step.) -/
def returnStepSpec (s : VMState) : Option (VMState × Bool) :=
  if s.callStack.length = 0 then some (s, false)
  else do
    let (rv, st1) ← stackPop s.stack
    let fr ← s.callStack.getLast?
    let s1 : VMState := { s with stack := st1, callStack := s.callStack.dropLast }
    let s2 : VMState := { s1 with variableEnd := fr.variableEnd }
    if 0 ≤ fr.stackEnd ∧ fr.stackEnd ≤ (s2.stack.length : Int) then do
      let s3 : VMState := { s2 with stack := s2.stack.take fr.stackEnd.toNat }
      let s4 : VMState := { s3 with scope := fr.scope }
      let s5 : VMState := { s4 with ip := fr.ip, chunk := fr.chunk }
      let s6 ← purgeVars s5
      pure ({ s6 with stack := s6.stack ++ [rv] }, true)
    else none

/-- A VM about to run Return inside a call: one caller variable below
variableEnd, one callee variable above the frame stack end, the return
value on top. -/
def retWitnessState : VMState :=
  { chunk := { bytecode := [InstructionReturn], constants := [] },
    ip := 0, scope := 1,
    globals := [],
    variableEnd := 2,
    stack := [.varV "a" (.num 3) 0, .varV "x" (.num 4) 1, .num 5],
    callStack := [{ chunk := { bytecode := [InstructionReturn, InstructionReturn], constants := [] },
                    ip := 1, stackEnd := 1, variableEnd := 1, scope := 0 }] }

/-- A diamond import graph: A imports B and C, each of which imports
D. -/
def diamondProg : String → List String
  | "A" => ["B", "C"]
  | "B" => ["D"]
  | "C" => ["D"]
  | _ => []

/-- The call "a,b".split(",") as the parser delivers it. -/
def splitCallNode : Node := .callN (.accessN (.strN "a,b") "split") [.strN ","] true

/-!
Supporting lemmas.
-/

theorem getElem?_append_lt {α : Type} (l1 l2 : List α) (i : Nat) (h : i < l1.length) :
    (l1 ++ l2)[i]? = l1[i]? := by
  rw [List.getElem?_append]
  rw [if_pos h]

theorem getElem?_append_ge {α : Type} (l1 l2 : List α) (i : Nat) (h : l1.length ≤ i) :
    (l1 ++ l2)[i]? = l2[i - l1.length]? := by
  rw [List.getElem?_append]
  rw [if_neg (by omega)]

theorem cAdd_ip (c : CState) (i : Nat) : (cAdd c i).ip = c.ip + 1 := rfl

theorem cAdd_length (c : CState) (i : Nat) :
    (cAdd c i).bytecode.length = max (c.ip + 1) c.bytecode.length := by
  simp [cAdd]
  omega

theorem cAdd_get_self (c : CState) (i : Nat) : (cAdd c i).bytecode[c.ip]? = some i := by
  simp only [cAdd]
  rw [List.getElem?_set_eq_of_lt]
  simp
  omega

theorem cAdd_get_preserve (c : CState) (i j : Nat) (hne : j ≠ c.ip)
    (hlt : j < c.bytecode.length) :
    (cAdd c i).bytecode[j]? = c.bytecode[j]? := by
  simp only [cAdd]
  rw [List.getElem?_set_ne (by omega)]
  rw [List.getElem?_append]
  simp [hlt]

theorem hView_congr (P : Nat → Bool) (H1 H2 : Heap)
    (hagree : ∀ i, P i = true → H1[i]? = H2[i]?)
    (hcl : heapClosedIn P H1) :
    ∀ fuel,
      (∀ v, hvalRefsIn P v = true → hView fuel H1 v = hView fuel H2 v) ∧
      (∀ l, l.all (hvalRefsIn P) = true → hViewList fuel H1 l = hViewList fuel H2 l) ∧
      (∀ ms, ms.all (fun kv => hvalRefsIn P kv.2) = true →
        hViewMembers fuel H1 ms = hViewMembers fuel H2 ms) := by
  intro fuel
  induction fuel with
  | zero => exact ⟨fun v _ => by simp [hView], fun l _ => by simp [hViewList],
                   fun ms _ => by simp [hViewMembers]⟩
  | succ n ih =>
    obtain ⟨ihV, ihL, ihM⟩ := ih
    have hV : ∀ v, hvalRefsIn P v = true → hView (n + 1) H1 v = hView (n + 1) H2 v := by
      intro v href
      cases v with
      | hnil => simp [hView]
      | hbool b => simp [hView]
      | hnum q => simp [hView]
      | hstr t => simp [hView]
      | hvar nm w sc =>
          have hw : hvalRefsIn P w = true := by simpa [hvalRefsIn] using href
          simp [hView, ihV w hw]
      | hlistRef a =>
          have hPa : P a = true := by simpa [hvalRefsIn] using href
          have hag := hagree a hPa
          simp only [hView, ← hag]
          cases hh : H1[a]? with
          | none => rfl
          | some c =>
            cases c with
            | ls items =>
                have hrefs : items.all (hvalRefsIn P) = true := by
                  have := hcl a hPa _ hh
                  simpa [contRefsIn] using this
                simp [ihL items hrefs]
            | ob ms => rfl
      | hobjRef a =>
          have hPa : P a = true := by simpa [hvalRefsIn] using href
          have hag := hagree a hPa
          simp only [hView, ← hag]
          cases hh : H1[a]? with
          | none => rfl
          | some c =>
            cases c with
            | ls items => rfl
            | ob ms =>
                have hrefs : ms.all (fun kv => hvalRefsIn P kv.2) = true := by
                  have := hcl a hPa _ hh
                  simpa [contRefsIn] using this
                simp [ihM ms hrefs]
    refine ⟨hV, ?_, ?_⟩
    · intro l hall
      cases l with
      | nil => simp [hViewList]
      | cons x xs =>
          simp only [List.all_cons, Bool.and_eq_true] at hall
          simp [hViewList, hV x hall.1, ihL xs hall.2]
    · intro ms hall
      cases ms with
      | nil => simp [hViewMembers]
      | cons kv rest =>
          obtain ⟨k, x⟩ := kv
          simp only [List.all_cons, Bool.and_eq_true] at hall
          simp [hViewMembers, hV x hall.1, ihM rest hall.2]

theorem hClone_facts (m : Nat) :
    ∀ fuel,
      (∀ H v H2 c, m ≤ H.length →
        (∀ i, m ≤ i → ∀ cont, H[i]? = some cont →
          contRefsIn (fun a => decide (m ≤ a)) cont = true) →
        hClone fuel H v = some (H2, c) →
        (∃ ext, H2 = H ++ ext) ∧
        hvalRefsIn (fun a => decide (m ≤ a)) c = true ∧
        (∀ i, m ≤ i → ∀ cont, H2[i]? = some cont →
          contRefsIn (fun a => decide (m ≤ a)) cont = true)) ∧
      (∀ H l H2 l2, m ≤ H.length →
        (∀ i, m ≤ i → ∀ cont, H[i]? = some cont →
          contRefsIn (fun a => decide (m ≤ a)) cont = true) →
        hCloneList fuel H l = some (H2, l2) →
        (∃ ext, H2 = H ++ ext) ∧
        l2.all (hvalRefsIn (fun a => decide (m ≤ a))) = true ∧
        (∀ i, m ≤ i → ∀ cont, H2[i]? = some cont →
          contRefsIn (fun a => decide (m ≤ a)) cont = true)) ∧
      (∀ H ms H2 ms2, m ≤ H.length →
        (∀ i, m ≤ i → ∀ cont, H[i]? = some cont →
          contRefsIn (fun a => decide (m ≤ a)) cont = true) →
        hCloneMembers fuel H ms = some (H2, ms2) →
        (∃ ext, H2 = H ++ ext) ∧
        ms2.all (fun kv => hvalRefsIn (fun a => decide (m ≤ a)) kv.2) = true ∧
        (∀ i, m ≤ i → ∀ cont, H2[i]? = some cont →
          contRefsIn (fun a => decide (m ≤ a)) cont = true)) := by
  intro fuel
  induction fuel with
  | zero =>
      refine ⟨?_, ?_, ?_⟩ <;> intro H x H2 y _ _ hc <;>
        simp [hClone, hCloneList, hCloneMembers] at hc
  | succ n ih =>
    obtain ⟨ihV, ihL, ihM⟩ := ih
    have hV : ∀ H v H2 c, m ≤ H.length →
        (∀ i, m ≤ i → ∀ cont, H[i]? = some cont →
          contRefsIn (fun a => decide (m ≤ a)) cont = true) →
        hClone (n + 1) H v = some (H2, c) →
        (∃ ext, H2 = H ++ ext) ∧
        hvalRefsIn (fun a => decide (m ≤ a)) c = true ∧
        (∀ i, m ≤ i → ∀ cont, H2[i]? = some cont →
          contRefsIn (fun a => decide (m ≤ a)) cont = true) := by
      intro H v H2 c hm hcl hc
      cases v with
      | hnil =>
          simp [hClone] at hc
          obtain ⟨rfl, rfl⟩ := hc
          exact ⟨⟨[], by simp⟩, rfl, hcl⟩
      | hbool b =>
          simp [hClone] at hc
          obtain ⟨rfl, rfl⟩ := hc
          exact ⟨⟨[], by simp⟩, rfl, hcl⟩
      | hnum q =>
          simp [hClone] at hc
          obtain ⟨rfl, rfl⟩ := hc
          exact ⟨⟨[], by simp⟩, rfl, hcl⟩
      | hstr t =>
          simp [hClone] at hc
          obtain ⟨rfl, rfl⟩ := hc
          exact ⟨⟨[], by simp⟩, rfl, hcl⟩
      | hvar nm w sc =>
          simp only [hClone, Option.bind_eq_bind] at hc
          cases hcw : hClone n H w with
          | none => rw [hcw] at hc; simp at hc
          | some p =>
              obtain ⟨Hw, w2⟩ := p
              rw [hcw] at hc
              simp at hc
              obtain ⟨rfl, rfl⟩ := hc
              obtain ⟨hext, hrefs, hcl2⟩ := ihV H w Hw w2 hm hcl hcw
              exact ⟨hext, by simpa [hvalRefsIn] using hrefs, hcl2⟩
      | hlistRef a =>
          simp only [hClone] at hc
          cases hh : H[a]? with
          | none => rw [hh] at hc; simp at hc
          | some cont =>
              rw [hh] at hc
              cases cont with
              | ob ms => simp at hc
              | ls items =>
                  simp only [Option.bind_eq_bind] at hc
                  cases hcl1 : hCloneList n H items with
                  | none => rw [hcl1] at hc; simp at hc
                  | some p =>
                      obtain ⟨Hmid, items2⟩ := p
                      rw [hcl1] at hc
                      simp at hc
                      obtain ⟨rfl, rfl⟩ := hc
                      obtain ⟨⟨ext, hext⟩, hrefs, hcl2⟩ := ihL H items Hmid items2 hm hcl hcl1
                      have hmlen : m ≤ Hmid.length := by
                        rw [hext]; simp; omega
                      refine ⟨⟨ext ++ [.ls items2], by rw [hext]; simp⟩, ?_, ?_⟩
                      · simp [hvalRefsIn]
                        omega
                      · intro i hi cont2 hcont
                        rcases Nat.lt_or_ge i Hmid.length with hilt | hige
                        · rw [getElem?_append_lt _ _ _ hilt] at hcont
                          exact hcl2 i hi cont2 hcont
                        · rw [getElem?_append_ge _ _ _ hige] at hcont
                          rcases Nat.lt_or_ge (i - Hmid.length) 1 with h1 | h1
                          · have h0 : i - Hmid.length = 0 := by omega
                            rw [h0] at hcont
                            simp at hcont
                            subst hcont
                            simpa [contRefsIn] using hrefs
                          · rw [List.getElem?_eq_none (by simp; omega)] at hcont
                            exact absurd hcont (by simp)
      | hobjRef a =>
          simp only [hClone] at hc
          cases hh : H[a]? with
          | none => rw [hh] at hc; simp at hc
          | some cont =>
              rw [hh] at hc
              cases cont with
              | ls items => simp at hc
              | ob ms =>
                  simp only [Option.bind_eq_bind] at hc
                  cases hcl1 : hCloneMembers n H ms with
                  | none => rw [hcl1] at hc; simp at hc
                  | some p =>
                      obtain ⟨Hmid, ms2⟩ := p
                      rw [hcl1] at hc
                      simp at hc
                      obtain ⟨rfl, rfl⟩ := hc
                      obtain ⟨⟨ext, hext⟩, hrefs, hcl2⟩ := ihM H ms Hmid ms2 hm hcl hcl1
                      have hmlen : m ≤ Hmid.length := by
                        rw [hext]; simp; omega
                      refine ⟨⟨ext ++ [.ob ms2], by rw [hext]; simp⟩, ?_, ?_⟩
                      · simp [hvalRefsIn]
                        omega
                      · intro i hi cont2 hcont
                        rcases Nat.lt_or_ge i Hmid.length with hilt | hige
                        · rw [getElem?_append_lt _ _ _ hilt] at hcont
                          exact hcl2 i hi cont2 hcont
                        · rw [getElem?_append_ge _ _ _ hige] at hcont
                          rcases Nat.lt_or_ge (i - Hmid.length) 1 with h1 | h1
                          · have h0 : i - Hmid.length = 0 := by omega
                            rw [h0] at hcont
                            simp at hcont
                            subst hcont
                            simpa [contRefsIn] using hrefs
                          · rw [List.getElem?_eq_none (by simp; omega)] at hcont
                            exact absurd hcont (by simp)
    refine ⟨hV, ?_, ?_⟩
    · intro H l H2 l2 hm hcl hc
      cases l with
      | nil =>
          simp [hCloneList] at hc
          obtain ⟨rfl, rfl⟩ := hc
          exact ⟨⟨[], by simp⟩, rfl, hcl⟩
      | cons x xs =>
          simp only [hCloneList, Option.bind_eq_bind] at hc
          cases hcx : hClone (n + 1) H x with
          | none => rw [hcx] at hc; simp at hc
          | some p =>
              obtain ⟨H1, y⟩ := p
              rw [hcx] at hc
              simp only [Option.some_bind] at hc
              cases hcxs : hCloneList n H1 xs with
              | none => rw [hcxs] at hc; simp at hc
              | some p2 =>
                  obtain ⟨Hx, ys⟩ := p2
                  rw [hcxs] at hc
                  simp at hc
                  obtain ⟨rfl, rfl⟩ := hc
                  obtain ⟨⟨e1, he1⟩, hr1, hc1⟩ := hV H x H1 y hm hcl hcx
                  have hm1 : m ≤ H1.length := by rw [he1]; simp; omega
                  obtain ⟨⟨e2, he2⟩, hr2, hc2⟩ := ihL H1 xs Hx ys hm1 hc1 hcxs
                  refine ⟨⟨e1 ++ e2, by rw [he2, he1]; simp⟩, ?_, hc2⟩
                  simp [hr1, hr2]
    · intro H ms H2 ms2 hm hcl hc
      cases ms with
      | nil =>
          simp [hCloneMembers] at hc
          obtain ⟨rfl, rfl⟩ := hc
          exact ⟨⟨[], by simp⟩, rfl, hcl⟩
      | cons kv rest =>
          obtain ⟨k, x⟩ := kv
          simp only [hCloneMembers, Option.bind_eq_bind] at hc
          cases hcx : hClone (n + 1) H x with
          | none => rw [hcx] at hc; simp at hc
          | some p =>
              obtain ⟨H1, y⟩ := p
              rw [hcx] at hc
              simp only [Option.some_bind] at hc
              cases hcxs : hCloneMembers n H1 rest with
              | none => rw [hcxs] at hc; simp at hc
              | some p2 =>
                  obtain ⟨Hx, ys⟩ := p2
                  rw [hcxs] at hc
                  simp at hc
                  obtain ⟨rfl, rfl⟩ := hc
                  obtain ⟨⟨e1, he1⟩, hr1, hc1⟩ := hV H x H1 y hm hcl hcx
                  have hm1 : m ≤ H1.length := by rw [he1]; simp; omega
                  obtain ⟨⟨e2, he2⟩, hr2, hc2⟩ := ihM H1 rest Hx ys hm1 hc1 hcxs
                  refine ⟨⟨e1 ++ e2, by rw [he2, he1]; simp⟩, ?_, hc2⟩
                  simp [hr1, hr2]


theorem mem_of_getElem?_some {α : Type} {l : List α} {i : Nat} {a : α}
    (h : l[i]? = some a) : a ∈ l := by
  obtain ⟨hlt, rfl⟩ := List.getElem?_eq_some.mp h
  exact List.getElem_mem hlt

theorem partitionB_decomp (s : VMState) (h : partitionB s = true) :
    ∃ A B, s.stack = A ++ B ∧ (A.length : Int) = s.variableEnd ∧
      (∀ v ∈ A, isVariableSlot v = true) ∧ (∀ v ∈ B, isVariableSlot v = false) := by
  simp only [partitionB, Bool.and_eq_true, decide_eq_true_eq, List.all_eq_true] at h
  obtain ⟨⟨⟨h0, hle⟩, hlow⟩, hhigh⟩ := h
  refine ⟨s.stack.take s.variableEnd.toNat, s.stack.drop s.variableEnd.toNat,
    (List.take_append_drop _ _).symm, ?_, hlow, ?_⟩
  · rw [List.length_take]
    omega
  · intro v hv
    simpa using hhigh v hv

theorem partitionB_build (s2 : VMState) (A B : List Value)
    (hst : s2.stack = A ++ B) (hve : s2.variableEnd = (A.length : Int))
    (hA : ∀ v ∈ A, isVariableSlot v = true) (hB : ∀ v ∈ B, isVariableSlot v = false) :
    partitionB s2 = true := by
  simp only [partitionB, hst, hve, Bool.and_eq_true, decide_eq_true_eq, List.all_eq_true]
  refine ⟨⟨⟨by positivity, by simp⟩, ?_⟩, ?_⟩
  · intro v hv
    rw [Int.toNat_natCast, List.take_left] at hv
    exact hA v hv
  · intro v hv
    rw [Int.toNat_natCast, List.drop_left] at hv
    simpa using hB v hv

theorem partitionB_congr (s s2 : VMState)
    (hst : s2.stack = s.stack) (hve : s2.variableEnd = s.variableEnd) :
    partitionB s2 = partitionB s := by
  unfold partitionB
  rw [hst, hve]

theorem stackPop_of_ne_nil (A B : List Value) (hBne : B ≠ []) {v : Value}
    {st1 : List Value} (hpop : stackPop (A ++ B) = some (v, st1)) :
    ∃ B1, B = B1 ++ [v] ∧ st1 = A ++ B1 := by
  rcases List.eq_nil_or_concat B with rfl | ⟨B1, b, rfl⟩
  · exact absurd rfl hBne
  · simp only [List.concat_eq_append] at hpop ⊢
    unfold stackPop at hpop
    rw [← List.append_assoc, List.getLast?_concat] at hpop
    rw [List.dropLast_concat] at hpop
    simp at hpop
    obtain ⟨rfl, rfl⟩ := hpop
    exact ⟨B1, rfl, rfl⟩

theorem stackPop_nonvar_decomp (A B : List Value)
    (hA : ∀ w ∈ A, isVariableSlot w = true) {v : Value} {st1 : List Value}
    (hpop : stackPop (A ++ B) = some (v, st1)) (hv : isVariableSlot v = false) :
    ∃ B1, B = B1 ++ [v] ∧ st1 = A ++ B1 := by
  rcases List.eq_nil_or_concat B with rfl | ⟨B1, b, rfl⟩
  · unfold stackPop at hpop
    rw [List.append_nil] at hpop
    cases hgl : A.getLast? with
    | none => rw [hgl] at hpop; cases hpop
    | some w =>
        rw [hgl] at hpop
        simp at hpop
        obtain ⟨rfl, rfl⟩ := hpop
        have hvt := hA _ (List.mem_of_getLast?_eq_some hgl)
        rw [hvt] at hv
        cases hv
  · simp only [List.concat_eq_append] at hpop ⊢
    exact stackPop_of_ne_nil A (B1 ++ [b]) (by simp) hpop

theorem stackPop_temp_nonvar (A B : List Value)
    (hB : ∀ w ∈ B, isVariableSlot w = false) (hBne : B ≠ []) {v : Value}
    {st1 : List Value} (hpop : stackPop (A ++ B) = some (v, st1)) :
    isVariableSlot v = false := by
  obtain ⟨B1, hB1, _⟩ := stackPop_of_ne_nil A B hBne hpop
  exact hB v (by rw [hB1]; simp)

theorem popNum_eq {st : List Value} {q : ℚ} {rest : List Value}
    (h : popNum st = some (q, rest)) : stackPop st = some (.num q, rest) := by
  unfold popNum at h
  cases hp : stackPop st with
  | none => rw [hp] at h; cases h
  | some p =>
      obtain ⟨v, r⟩ := p
      rw [hp] at h
      cases v
      case num q2 =>
        simp at h
        obtain ⟨rfl, rfl⟩ := h
        rfl
      all_goals simp at h

theorem popBool_eq {st : List Value} {b : Bool} {rest : List Value}
    (h : popBool st = some (b, rest)) : stackPop st = some (.bool b, rest) := by
  unfold popBool at h
  cases hp : stackPop st with
  | none => rw [hp] at h; cases h
  | some p =>
      obtain ⟨v, r⟩ := p
      rw [hp] at h
      cases v
      case bool b2 =>
        simp at h
        obtain ⟨rfl, rfl⟩ := h
        rfl
      all_goals simp at h

theorem popStr_eq {st : List Value} {t : String} {rest : List Value}
    (h : popStr st = some (t, rest)) : stackPop st = some (.str t, rest) := by
  unfold popStr at h
  cases hp : stackPop st with
  | none => rw [hp] at h; cases h
  | some p =>
      obtain ⟨v, r⟩ := p
      rw [hp] at h
      cases v
      case str t2 =>
        simp at h
        obtain ⟨rfl, rfl⟩ := h
        rfl
      all_goals simp at h

theorem popList_eq {st : List Value} {items rest : List Value}
    (h : popList st = some (items, rest)) : stackPop st = some (.list items, rest) := by
  unfold popList at h
  cases hp : stackPop st with
  | none => rw [hp] at h; cases h
  | some p =>
      obtain ⟨v, r⟩ := p
      rw [hp] at h
      cases v
      case list items2 =>
        simp at h
        obtain ⟨rfl, rfl⟩ := h
        rfl
      all_goals simp at h

theorem partition_pop2_push (s s2 : VMState) (hpart : partitionB s = true)
    {v1 v2 : Value} {st1 st2 : List Value} (pushes : List Value)
    (h1 : stackPop s.stack = some (v1, st1))
    (h2 : stackPop st1 = some (v2, st2))
    (hv1 : isVariableSlot v1 = false) (hv2 : isVariableSlot v2 = false)
    (hpush : ∀ v ∈ pushes, isVariableSlot v = false)
    (hst : s2.stack = st2 ++ pushes) (hve : s2.variableEnd = s.variableEnd) :
    partitionB s2 = true := by
  obtain ⟨A, B, hAB, hlen, hA, hB⟩ := partitionB_decomp s hpart
  rw [hAB] at h1
  obtain ⟨B1, hB1, rfl⟩ := stackPop_nonvar_decomp A B hA h1 hv1
  have hBsub : ∀ w ∈ B1, isVariableSlot w = false := fun w hw =>
    hB w (by rw [hB1]; simp [hw])
  obtain ⟨B2, hB2, rfl⟩ := stackPop_nonvar_decomp A B1 hA h2 hv2
  refine partitionB_build s2 A (B2 ++ pushes) (by rw [hst, List.append_assoc])
    (by rw [hve, ← hlen]) hA ?_
  intro v hv
  rcases List.mem_append.mp hv with h | h
  · exact hBsub v (by rw [hB2]; simp [h])
  · exact hpush v h

theorem partition_pop1_push (s s2 : VMState) (hpart : partitionB s = true)
    {v1 : Value} {st1 : List Value} (pushes : List Value)
    (h1 : stackPop s.stack = some (v1, st1))
    (hv1 : isVariableSlot v1 = false)
    (hpush : ∀ v ∈ pushes, isVariableSlot v = false)
    (hst : s2.stack = st1 ++ pushes) (hve : s2.variableEnd = s.variableEnd) :
    partitionB s2 = true := by
  obtain ⟨A, B, hAB, hlen, hA, hB⟩ := partitionB_decomp s hpart
  rw [hAB] at h1
  obtain ⟨B1, hB1, rfl⟩ := stackPop_nonvar_decomp A B hA h1 hv1
  have hBsub : ∀ w ∈ B1, isVariableSlot w = false := fun w hw =>
    hB w (by rw [hB1]; simp [hw])
  refine partitionB_build s2 A (B1 ++ pushes) (by rw [hst, List.append_assoc])
    (by rw [hve, ← hlen]) hA ?_
  intro v hv
  rcases List.mem_append.mp hv with h | h
  · exact hBsub v h
  · exact hpush v h

theorem partition_push_only (s s2 : VMState) (hpart : partitionB s = true)
    (pushes : List Value)
    (hpush : ∀ v ∈ pushes, isVariableSlot v = false)
    (hst : s2.stack = s.stack ++ pushes) (hve : s2.variableEnd = s.variableEnd) :
    partitionB s2 = true := by
  obtain ⟨A, B, hAB, hlen, hA, hB⟩ := partitionB_decomp s hpart
  refine partitionB_build s2 A (B ++ pushes) (by rw [hst, hAB, List.append_assoc])
    (by rw [hve, ← hlen]) hA ?_
  intro v hv
  rcases List.mem_append.mp hv with h | h
  · exact hB v h
  · exact hpush v h

theorem vmNextByte_shape {s : VMState} {b : Nat} {s1 : VMState}
    (h : vmNextByte s = some (b, s1)) :
    s1 = { s with ip := s.ip + 1 } ∧ readByteAt s.chunk s.ip = some b := by
  unfold vmNextByte at h
  by_cases hlt : s.ip < (s.chunk.bytecode.length : Int)
  · rw [if_pos hlt] at h
    cases hro : readByteAt s.chunk s.ip with
    | none => rw [hro] at h; cases h
    | some b2 =>
        rw [hro] at h
        simp at h
        obtain ⟨rfl, rfl⟩ := h
        exact ⟨rfl, rfl⟩
  · rw [if_neg hlt] at h; cases h

theorem vmReadConstant_shape {s : VMState} {v : Value} {s1 : VMState}
    (h : vmReadConstant s = some (v, s1)) :
    s1 = { s with ip := s.ip + 1 } ∧ v ∈ s.chunk.constants := by
  unfold vmReadConstant at h
  cases hnb : vmNextByte s with
  | none => rw [hnb] at h; cases h
  | some p =>
      obtain ⟨b, s1'⟩ := p
      rw [hnb] at h
      obtain ⟨rfl, _⟩ := vmNextByte_shape hnb
      simp only [Option.bind_eq_bind, Option.some_bind] at h
      cases hgc : GetConstant s.chunk b with
      | none =>
          rw [show ({ s with ip := s.ip + 1 } : VMState).chunk = s.chunk from rfl, hgc] at h
          cases h
      | some w =>
          rw [show ({ s with ip := s.ip + 1 } : VMState).chunk = s.chunk from rfl, hgc] at h
          simp at h
          obtain ⟨rfl, rfl⟩ := h
          exact ⟨rfl, mem_of_getElem?_some hgc⟩

theorem nextU16_shape {s : VMState} {n : Nat} {s1 : VMState}
    (h : nextU16 s = some (n, s1)) :
    s1 = { s with ip := s.ip + 1 + 1 } := by
  unfold nextU16 at h
  cases hnb : vmNextByte s with
  | none => rw [hnb] at h; cases h
  | some p =>
      obtain ⟨b1, sA⟩ := p
      rw [hnb] at h
      obtain ⟨rfl, _⟩ := vmNextByte_shape hnb
      simp only [Option.bind_eq_bind, Option.some_bind] at h
      cases hnb2 : vmNextByte { s with ip := s.ip + 1 } with
      | none => rw [hnb2] at h; cases h
      | some p2 =>
          obtain ⟨b2, sB⟩ := p2
          rw [hnb2] at h
          obtain ⟨rfl, _⟩ := vmNextByte_shape hnb2
          simp at h
          obtain ⟨rfl, rfl⟩ := h
          rfl

theorem purgeVarsLoop_allvar (scope : Int) (n : Nat) :
    ∀ (stack : List Value) (ve : Int) (st2 : List Value) (ve2 : Int),
      purgeVarsLoop scope n stack ve = some (st2, ve2) →
      (∀ v ∈ stack, isVariableSlot v = true) → (stack.length : Int) = ve →
      (∀ v ∈ st2, isVariableSlot v = true) ∧ (st2.length : Int) = ve2 := by
  induction n with
  | zero =>
      intro stack ve st2 ve2 h hA hlen
      simp only [purgeVarsLoop] at h
      simp at h
      obtain ⟨rfl, rfl⟩ := h
      exact ⟨hA, hlen⟩
  | succ m ih =>
      intro stack ve st2 ve2 h hA hlen
      simp only [purgeVarsLoop] at h
      by_cases h0 : 0 < ve
      · rw [if_pos h0] at h
        split at h
        · split at h
          · exact ih stack.dropLast (ve - 1) st2 ve2 h
              (fun v hv => hA v (List.mem_of_mem_dropLast hv))
              (by rw [List.length_dropLast]; omega)
          · simp at h
            obtain ⟨rfl, rfl⟩ := h
            exact ⟨hA, hlen⟩
        · exact Option.noConfusion h
      · rw [if_neg h0] at h
        simp at h
        obtain ⟨rfl, rfl⟩ := h
        exact ⟨hA, hlen⟩

theorem stackPopN_append (A B : List Value) (n : Nat) (hn : n ≤ B.length) :
    stackPopN (A ++ B) n =
      some (B.drop (B.length - n), A ++ B.take (B.length - n)) := by
  unfold stackPopN
  rw [if_neg (by simp; omega)]
  rw [show (A ++ B).length - n = A.length + (B.length - n) by simp; omega]
  rw [List.drop_append, List.take_append]

theorem getVarIdxAux_lt (stack : List Value) :
    ∀ (n : Nat) (name : String) (i : Nat),
      getVarIdxAux stack n name = some i → i < n := by
  intro n
  induction n with
  | zero => intro name i h; simp [getVarIdxAux] at h
  | succ m ih =>
      intro name i h
      simp only [getVarIdxAux] at h
      split at h
      · split at h
        · simp at h
          omega
        · exact Nat.lt_succ_of_lt (ih name i h)
      · exact Nat.lt_succ_of_lt (ih name i h)

theorem lookupStr_mem {α : Type} (l : List (String × α)) (k : String) (v : α)
    (h : lookupStr l k = some v) : ∃ k2, (k2, v) ∈ l := by
  induction l with
  | nil => simp [lookupStr] at h
  | cons kv rest ih =>
      obtain ⟨k2, w⟩ := kv
      simp only [lookupStr] at h
      by_cases hk : k2 = k
      · rw [if_pos hk] at h
        simp at h
        subst h
        exact ⟨k2, by simp⟩
      · rw [if_neg hk] at h
        obtain ⟨k3, hm⟩ := ih h
        exact ⟨k3, by simp [hm]⟩

theorem listAtGo_ok_mem (items : List Value) (q : ℚ) (v : Value)
    (h : listAtGo items q = .ok v) : v ∈ items := by
  unfold listAtGo at h
  by_cases h1 : (items.length : Int) ≤ goTruncToInt q
  · rw [if_pos h1] at h; cases h
  · rw [if_neg h1] at h
    by_cases h2 : goTruncToInt q < 0
    · rw [if_pos h2] at h; cases h
    · rw [if_neg h2] at h
      cases hsl : items[(goTruncToInt q).toNat]? with
      | none => rw [hsl] at h; cases h
      | some w =>
          rw [hsl] at h
          simp at h
          subst h
          exact mem_of_getElem?_some hsl

theorem builtinApplyPure_nonvar (tag : BuiltinTag) (parent : Value)
    (args : List Value) (res : Value) (hp : parentListOk parent = true)
    (h : builtinApplyPure tag parent args = some (.ok res)) :
    isVariableSlot res = false := by
  cases tag <;> simp only [builtinApplyPure] at h
  case writeB =>
    split at h
    · split at h <;> simp at h
      subst h; rfl
    · simp at h
  case printB =>
    split at h
    · split at h <;> simp at h
      subst h; rfl
    · simp at h
  case formatB =>
    split at h
    · cases hf : formatGo _ _ with
      | ok t => rw [hf] at h; simp [GoRes.mapR] at h; subst h; rfl
      | err m => rw [hf] at h; simp [GoRes.mapR] at h
      | crash => rw [hf] at h; simp [GoRes.mapR] at h
    · simp at h
    · simp at h
  case charB =>
    split at h <;> simp at h
    subst h; rfl
  case byteB =>
    split at h
    · split at h <;> simp at h
      subst h; rfl
    · simp at h
    · simp at h
  case assertEqB =>
    split at h
    · split at h <;> simp at h
      subst h; rfl
    · simp at h
  case assertNotEqB =>
    split at h
    · split at h <;> simp at h
      subst h; rfl
    · simp at h
  case strB =>
    split at h
    · split at h <;> simp at h
      subst h; rfl
    · simp at h
  case typeB =>
    split at h
    · split at h
      · simp at h
      · split at h <;> simp at h
        subst h; rfl
    · simp at h
  case exitB => simp at h
  case splitP => split at h <;> simp at h
  case strLengthP =>
    split at h <;> simp at h
    subst h; rfl
  case atP =>
    split at h
    · simp at h
      simp only [parentListOk, List.all_eq_true] at hp
      simpa using hp res (listAtGo_ok_mem _ _ _ h)
    · simp at h
  case listLengthP =>
    split at h <;> simp at h
    subst h; rfl
  case appendP => simp at h
  case mapP => simp at h
  case reduceP => simp at h
  case objSetP => simp at h


theorem stackPop_parts {l : List Value} {v : Value} {st1 : List Value}
    (h : stackPop l = some (v, st1)) : l.getLast? = some v ∧ st1 = l.dropLast := by
  unfold stackPop at h
  cases hg : l.getLast? with
  | none => rw [hg] at h; cases h
  | some w =>
      rw [hg] at h
      simp at h
      obtain ⟨rfl, rfl⟩ := h
      exact ⟨rfl, rfl⟩

theorem applyCall_preserves (s s2 : VMState) (cont : Bool)
    (hpart : partitionB s = true) (hOK : callOK s = true)
    (happ : applyCall s = some (s2, cont)) :
    partitionB s2 = true := by
  unfold applyCall at happ
  cases hpop : stackPop s.stack with
  | none => rw [hpop] at happ; simp at happ
  | some p =>
      obtain ⟨v, st1⟩ := p
      rw [hpop] at happ
      simp only [Option.bind_eq_bind, Option.some_bind] at happ
      obtain ⟨hgl, hst1⟩ := stackPop_parts hpop
      obtain ⟨A, B, hAB, hlenA, hA, hB⟩ := partitionB_decomp s hpart
      have hslen : s.stack.length = A.length + B.length := by rw [hAB]; simp
      unfold callOK at hOK
      rw [hgl] at hOK
      split at happ
      · -- source-level function callee
        rename_i nm ps y code consts parent
        simp only [decide_eq_true_eq] at hOK
        have hBne : B ≠ [] := by
          intro hBnil
          rw [hBnil] at hslen
          simp at hslen
          omega
        have hst1AB : st1 = A ++ B.dropLast := by
          rw [hst1, hAB, List.dropLast_append_of_ne_nil _ hBne]
        have hdlB : B.dropLast.length = ps.length := by
          rw [List.length_dropLast]
          omega
        have hst1len : st1.length = A.length + ps.length := by
          rw [hst1AB]
          simp [hdlB]
        have hwrap : wrapParams st1 ps s.scope =
            some (st1.take (st1.length - ps.length) ++
              (ps.zip (st1.drop (st1.length - ps.length))).map
                (fun pv => .varV pv.1.1 pv.2 s.scope)) := by
          unfold wrapParams
          rw [if_neg (by omega)]
        rw [hwrap] at happ
        have hallvar : ∀ w ∈ st1.take (st1.length - ps.length) ++
            (ps.zip (st1.drop (st1.length - ps.length))).map
              (fun pv => Value.varV pv.1.1 pv.2 s.scope), isVariableSlot w = true := by
          intro w hw
          rcases List.mem_append.mp hw with h1 | h2
          · rw [show st1.length - ps.length = A.length from by omega, hst1AB,
              List.take_left] at h1
            exact hA w h1
          · obtain ⟨pv, hmem, rfl⟩ := List.mem_map.mp h2
            rfl
        cases parent
        case goNil =>
          simp at happ
          obtain ⟨hS, -⟩ := happ
          rw [← hS]
          exact partitionB_build _ _ [] (by simp) (by simp) hallvar (by simp)
        all_goals (
          simp [addVar] at happ
          obtain ⟨hS, -⟩ := happ
          subst hS
          refine partitionB_build _ _ [] (by rw [List.append_nil]) ?_ ?_ (by simp)
          · simp [List.length_take]
          · intro w hw
            simp only [List.mem_append, List.mem_singleton] at hw
            rcases hw with h1 | h2 | h3
            · exact hallvar w (List.mem_append.mpr (Or.inl h1))
            · exact hallvar w (List.mem_append.mpr (Or.inr h2))
            · rw [h3]
              rfl)
      · -- builtin callee
        rename_i tag parent
        split at happ
        · rename_i tin out heq
          simp only [heq, Bool.and_eq_true, decide_eq_true_eq] at hOK
          obtain ⟨harity, hplok⟩ := hOK
          simp only [tempsOf] at harity
          have hBne : B ≠ [] := by
            intro hBnil
            rw [hBnil] at hslen
            simp at hslen
            omega
          have hst1AB : st1 = A ++ B.dropLast := by
            rw [hst1, hAB, List.dropLast_append_of_ne_nil _ hBne]
          have hdlB : B.dropLast.length = B.length - 1 := List.length_dropLast B
          have htin : tin.length ≤ B.dropLast.length := by
            rw [hdlB]
            have hBpos : 0 < B.length := List.length_pos.mpr hBne
            omega
          rw [hst1AB, stackPopN_append A B.dropLast tin.length htin] at happ
          simp only [Option.bind_eq_bind, Option.some_bind] at happ
          cases hap : builtinApplyPure tag parent
              (B.dropLast.drop (B.dropLast.length - tin.length)) with
          | none => rw [hap] at happ; simp at happ
          | some r =>
              rw [hap] at happ
              cases r with
              | err m => simp at happ
              | crash => simp at happ
              | ok res =>
                  simp at happ
                  obtain ⟨hS, -⟩ := happ
                  subst hS
                  refine partitionB_build _ A
                    (B.dropLast.take (B.dropLast.length - tin.length) ++ [res])
                    (by simp) hlenA.symm hA ?_
                  intro w hw
                  simp only [List.mem_append, List.mem_singleton] at hw
                  rcases hw with h1 | h2
                  · exact hB w (List.mem_of_mem_dropLast (List.mem_of_mem_take h1))
                  · rw [h2]
                    exact builtinApplyPure_nonvar tag parent _ res hplok hap
        · simp at happ
      · -- any other callee is a fatal dispatch error
        simp at happ

theorem step_popNum2_preserves (s s2 : VMState) (cont : Bool)
    (hpart : partitionB s = true)
    (f : ℚ → ℚ → Value) (hf : ∀ a b, isVariableSlot (f a b) = false)
    (hstep : (do
      let (r, st1) ← popNum s.stack
      let (l, st2) ← popNum st1
      pure ({ s with stack := st2 ++ [f l r] }, true) : Option (VMState × Bool)) =
      some (s2, cont)) :
    partitionB s2 = true := by
  cases hp1 : popNum s.stack with
  | none => rw [hp1] at hstep; simp at hstep
  | some p1 =>
      obtain ⟨r, st1⟩ := p1
      rw [hp1] at hstep
      simp only [Option.bind_eq_bind, Option.some_bind] at hstep
      cases hp2 : popNum st1 with
      | none => rw [hp2] at hstep; simp at hstep
      | some p2 =>
          obtain ⟨l, st2⟩ := p2
          rw [hp2] at hstep
          simp at hstep
          obtain ⟨hS, -⟩ := hstep
          subst hS
          exact partition_pop2_push s _ hpart [f l r] (popNum_eq hp1) (popNum_eq hp2)
            rfl rfl (by intro v hv; simp at hv; subst hv; exact hf l r) rfl rfl

theorem step_popBool2_preserves (s s2 : VMState) (cont : Bool)
    (hpart : partitionB s = true)
    (f : Bool → Bool → Value) (hf : ∀ a b, isVariableSlot (f a b) = false)
    (hstep : (do
      let (r, st1) ← popBool s.stack
      let (l, st2) ← popBool st1
      pure ({ s with stack := st2 ++ [f l r] }, true) : Option (VMState × Bool)) =
      some (s2, cont)) :
    partitionB s2 = true := by
  cases hp1 : popBool s.stack with
  | none => rw [hp1] at hstep; simp at hstep
  | some p1 =>
      obtain ⟨r, st1⟩ := p1
      rw [hp1] at hstep
      simp only [Option.bind_eq_bind, Option.some_bind] at hstep
      cases hp2 : popBool st1 with
      | none => rw [hp2] at hstep; simp at hstep
      | some p2 =>
          obtain ⟨l, st2⟩ := p2
          rw [hp2] at hstep
          simp at hstep
          obtain ⟨hS, -⟩ := hstep
          subst hS
          exact partition_pop2_push s _ hpart [f l r] (popBool_eq hp1) (popBool_eq hp2)
            rfl rfl (by intro v hv; simp at hv; subst hv; exact hf l r) rfl rfl

theorem step_popStr2_preserves (s s2 : VMState) (cont : Bool)
    (hpart : partitionB s = true)
    (f : String → String → Value) (hf : ∀ a b, isVariableSlot (f a b) = false)
    (hstep : (do
      let (r, st1) ← popStr s.stack
      let (l, st2) ← popStr st1
      pure ({ s with stack := st2 ++ [f l r] }, true) : Option (VMState × Bool)) =
      some (s2, cont)) :
    partitionB s2 = true := by
  cases hp1 : popStr s.stack with
  | none => rw [hp1] at hstep; simp at hstep
  | some p1 =>
      obtain ⟨r, st1⟩ := p1
      rw [hp1] at hstep
      simp only [Option.bind_eq_bind, Option.some_bind] at hstep
      cases hp2 : popStr st1 with
      | none => rw [hp2] at hstep; simp at hstep
      | some p2 =>
          obtain ⟨l, st2⟩ := p2
          rw [hp2] at hstep
          simp at hstep
          obtain ⟨hS, -⟩ := hstep
          subst hS
          exact partition_pop2_push s _ hpart [f l r] (popStr_eq hp1) (popStr_eq hp2)
            rfl rfl (by intro v hv; simp at hv; subst hv; exact hf l r) rfl rfl

theorem step_popList2_preserves (s s2 : VMState) (cont : Bool)
    (hpart : partitionB s = true)
    (f : List Value → List Value → Value)
    (hf : ∀ a b, isVariableSlot (f a b) = false)
    (hstep : (do
      let (r, st1) ← popList s.stack
      let (l, st2) ← popList st1
      pure ({ s with stack := st2 ++ [f l r] }, true) : Option (VMState × Bool)) =
      some (s2, cont)) :
    partitionB s2 = true := by
  cases hp1 : popList s.stack with
  | none => rw [hp1] at hstep; simp at hstep
  | some p1 =>
      obtain ⟨r, st1⟩ := p1
      rw [hp1] at hstep
      simp only [Option.bind_eq_bind, Option.some_bind] at hstep
      cases hp2 : popList st1 with
      | none => rw [hp2] at hstep; simp at hstep
      | some p2 =>
          obtain ⟨l, st2⟩ := p2
          rw [hp2] at hstep
          simp at hstep
          obtain ⟨hS, -⟩ := hstep
          subst hS
          exact partition_pop2_push s _ hpart [f l r] (popList_eq hp1) (popList_eq hp2)
            rfl rfl (by intro v hv; simp at hv; subst hv; exact hf l r) rfl rfl

theorem step_popNum1_preserves (s s2 : VMState) (cont : Bool)
    (hpart : partitionB s = true)
    (f : ℚ → Value) (hf : ∀ a, isVariableSlot (f a) = false)
    (hstep : (do
      let (v, st1) ← popNum s.stack
      pure ({ s with stack := st1 ++ [f v] }, true) : Option (VMState × Bool)) =
      some (s2, cont)) :
    partitionB s2 = true := by
  cases hp1 : popNum s.stack with
  | none => rw [hp1] at hstep; simp at hstep
  | some p1 =>
      obtain ⟨v, st1⟩ := p1
      rw [hp1] at hstep
      simp at hstep
      obtain ⟨hS, -⟩ := hstep
      subst hS
      exact partition_pop1_push s _ hpart [f v] (popNum_eq hp1) rfl
        (by intro w hw; simp at hw; subst hw; exact hf v) rfl rfl

theorem step_popBool1_preserves (s s2 : VMState) (cont : Bool)
    (hpart : partitionB s = true)
    (f : Bool → Value) (hf : ∀ a, isVariableSlot (f a) = false)
    (hstep : (do
      let (v, st1) ← popBool s.stack
      pure ({ s with stack := st1 ++ [f v] }, true) : Option (VMState × Bool)) =
      some (s2, cont)) :
    partitionB s2 = true := by
  cases hp1 : popBool s.stack with
  | none => rw [hp1] at hstep; simp at hstep
  | some p1 =>
      obtain ⟨v, st1⟩ := p1
      rw [hp1] at hstep
      simp at hstep
      obtain ⟨hS, -⟩ := hstep
      subst hS
      exact partition_pop1_push s _ hpart [f v] (popBool_eq hp1) rfl
        (by intro w hw; simp at hw; subst hw; exact hf v) rfl rfl

theorem valueGet_ok_facts {v : Value} {key : String} {member : Value}
    (h : valueGet v key = .ok member) (hobj : objMembersOk v = true) :
    isVariableSlot v = false ∧ isVariableSlot member = false := by
  cases v <;> simp only [valueGet] at h
  case nil => cases h
  case goNil => cases h
  case bool b => cases h
  case num q => cases h
  case str t =>
    cases hsp : StringPrototype key with
    | some tag =>
        rw [hsp] at h
        simp at h
        subst h
        exact ⟨rfl, rfl⟩
    | none => rw [hsp] at h; cases h
  case list items =>
    cases hlp : ListPrototype key with
    | some tag =>
        rw [hlp] at h
        simp at h
        subst h
        exact ⟨rfl, rfl⟩
    | none => rw [hlp] at h; cases h
  case obj ms =>
    cases hl : lookupStr ms key with
    | some m =>
        rw [hl] at h
        simp at h
        subst h
        refine ⟨rfl, ?_⟩
        obtain ⟨k2, hmem⟩ := lookupStr_mem ms key _ hl
        simp only [objMembersOk, List.all_eq_true] at hobj
        simpa using hobj (k2, _) hmem
    | none =>
        rw [hl] at h
        cases hop : ObjectPrototype key with
        | some tag =>
            rw [hop] at h
            simp at h
            subst h
            exact ⟨rfl, rfl⟩
        | none => rw [hop] at h; cases h
  case fn nm ps y code consts parent => cases h
  case builtin tag parent => cases h
  case varV nm w sc => cases h

theorem step_popEq_preserves (s s2 : VMState) (cont : Bool)
    (hpart : partitionB s = true) (htmp : 2 ≤ tempsOf s)
    (f : Bool → Value) (hf : ∀ a, isVariableSlot (f a) = false)
    (hstep : (do
      let (r, st1) ← stackPop s.stack
      let (l, st2) ← stackPop st1
      match valueEquals r l with
      | none => none
      | some eq => pure ({ s with stack := st2 ++ [f eq] }, true) :
        Option (VMState × Bool)) = some (s2, cont)) :
    partitionB s2 = true := by
  simp only [tempsOf] at htmp
  obtain ⟨A, B, hAB, hlenA, hA, hB⟩ := partitionB_decomp s hpart
  have hslen : s.stack.length = A.length + B.length := by rw [hAB]; simp
  cases hp1 : stackPop s.stack with
  | none => rw [hp1] at hstep; simp at hstep
  | some p1 =>
      obtain ⟨r, st1⟩ := p1
      rw [hp1] at hstep
      simp only [Option.bind_eq_bind, Option.some_bind] at hstep
      have hp1b : stackPop (A ++ B) = some (r, st1) := by rw [← hAB]; exact hp1
      have hBne : B ≠ [] := by intro h0; rw [h0] at hslen; simp at hslen; omega
      have hv1 : isVariableSlot r = false := stackPop_temp_nonvar A B hB hBne hp1b
      obtain ⟨B1, hB1, hst1e⟩ := stackPop_of_ne_nil A B hBne hp1b
      have hlB1 : B.length = B1.length + 1 := by rw [hB1]; simp
      have hB1all : ∀ w ∈ B1, isVariableSlot w = false := fun w hw =>
        hB w (by rw [hB1]; simp [hw])
      have hB1ne : B1 ≠ [] := by
        intro h0
        rw [h0] at hlB1
        simp at hlB1
        omega
      cases hp2 : stackPop st1 with
      | none => rw [hp2] at hstep; simp at hstep
      | some p2 =>
          obtain ⟨l, st2⟩ := p2
          rw [hp2] at hstep
          simp only [Option.some_bind] at hstep
          have hp2b : stackPop (A ++ B1) = some (l, st2) := by rw [← hst1e]; exact hp2
          have hv2 : isVariableSlot l = false := stackPop_temp_nonvar A B1 hB1all hB1ne hp2b
          cases hveq : valueEquals r l with
          | none => rw [hveq] at hstep; simp at hstep
          | some eq =>
              rw [hveq] at hstep
              simp at hstep
              obtain ⟨hS, -⟩ := hstep
              subst hS
              exact partition_pop2_push s _ hpart [f eq] hp1 hp2 hv1 hv2
                (by intro w hw; simp at hw; subst hw; exact hf eq) rfl rfl

theorem stepInstr_preserves_partition (s : VMState) (b : Nat)
    (s2 : VMState) (cont : Bool)
    (hpart : partitionB s = true) (hOK : stepInstrOK s b = true)
    (hstep : stepInstr s b = some (s2, cont)) :
    partitionB s2 = true := by
  by_cases hb : b < 40
  case neg =>
    exfalso
    unfold stepInstr at hstep
    iterate 40 rw [if_neg (by simp only [InstructionReturn, InstructionPop,
      InstructionAdd, InstructionSub, InstructionMul, InstructionDiv,
      InstructionNegate, InstructionEquals, InstructionNotEqual, InstructionNot,
      InstructionLess, InstructionLessOrEqual, InstructionGreater,
      InstructionGreaterOrEqual, InstructionAccessProperty, InstructionCall,
      InstructionDescend, InstructionAscend, InstructionJump, InstructionJumpFalse,
      InstructionLoop, InstructionGetLocal, InstructionSetLocal,
      InstructionDeclareLocal, InstructionGetGlobal, InstructionSetGlobal,
      InstructionStringConversion, InstructionStringConcatenation, InstructionSwap,
      InstructionAnd, InstructionOr, InstructionConstant, InstructionTrue,
      InstructionFalse, InstructionNil, InstructionNewList, InstructionAppend,
      InstructionFormList, InstructionConcatLists, InstructionBreakpoint]; omega)] at hstep
    exact Option.noConfusion hstep
  case pos =>
    interval_cases b
    -- 0 Return
    · replace hstep : ((if s.callStack.length = 0 then some (s, false)
        else do
          let (v, st1) ← stackPop s.stack
          let c ← s.callStack.getLast?
          if 0 ≤ c.stackEnd ∧ c.stackEnd ≤ (st1.length : Int) then do
            let sr : VMState :=
              { chunk := c.chunk, ip := c.ip, scope := c.scope, globals := s.globals,
                variableEnd := c.variableEnd, stack := st1.take c.stackEnd.toNat,
                callStack := s.callStack.dropLast }
            let s3 ← purgeVars sr
            pure ({ s3 with stack := s3.stack ++ [v] }, true)
          else none) : Option (VMState × Bool)) = some (s2, cont) := hstep
      replace hOK : (match s.callStack.getLast? with
        | none => true
        | some fr => decide (fr.variableEnd = fr.stackEnd) &&
            decide (fr.stackEnd ≤ s.variableEnd) && decide (1 ≤ tempsOf s)) = true := hOK
      by_cases hcs : s.callStack.length = 0
      · rw [if_pos hcs] at hstep
        simp at hstep
        obtain ⟨hS, -⟩ := hstep
        subst hS
        exact hpart
      · rw [if_neg hcs] at hstep
        obtain ⟨A, B, hAB, hlenA, hA, hB⟩ := partitionB_decomp s hpart
        have hslen : s.stack.length = A.length + B.length := by rw [hAB]; simp
        cases hpop : stackPop s.stack with
        | none => rw [hpop] at hstep; simp at hstep
        | some p =>
            obtain ⟨rv, st1⟩ := p
            rw [hpop] at hstep
            simp only [Option.bind_eq_bind, Option.some_bind] at hstep
            cases hfr : s.callStack.getLast? with
            | none => rw [hfr] at hstep; simp at hstep
            | some fr =>
                rw [hfr] at hstep
                rw [hfr] at hOK
                simp only [Option.some_bind] at hstep
                simp only [Bool.and_eq_true, decide_eq_true_eq, tempsOf] at hOK
                obtain ⟨⟨hfve, hfse⟩, htmp⟩ := hOK
                have hBne : B ≠ [] := by
                  intro h0
                  rw [h0] at hslen
                  simp at hslen
                  omega
                have hpop2 : stackPop (A ++ B) = some (rv, st1) := by
                  rw [← hAB]; exact hpop
                have hrvnv : isVariableSlot rv = false :=
                  stackPop_temp_nonvar A B hB hBne hpop2
                obtain ⟨B1, hB1, hst1e⟩ := stackPop_of_ne_nil A B hBne hpop2
                split at hstep
                · rename_i hcond
                  have htoA : st1.take fr.stackEnd.toNat = A.take fr.stackEnd.toNat := by
                    rw [hst1e]
                    exact List.take_append_of_le_length (by omega)
                  have htk : ∀ w ∈ st1.take fr.stackEnd.toNat, isVariableSlot w = true := by
                    intro w hw
                    rw [htoA] at hw
                    exact hA w (List.mem_of_mem_take hw)
                  have hst1l : st1.length = A.length + B1.length := by rw [hst1e]; simp
                  have hlentk : ((st1.take fr.stackEnd.toNat).length : Int) =
                      fr.variableEnd := by
                    rw [List.length_take]
                    omega
                  unfold purgeVars at hstep
                  split at hstep
                  · rename_i st3 ve3 heq
                    simp at hstep
                    obtain ⟨hS, -⟩ := hstep
                    subst hS
                    obtain ⟨hA3, hlen3⟩ :=
                      purgeVarsLoop_allvar _ _ _ _ _ _ heq htk hlentk
                    exact partitionB_build _ st3 [rv] rfl hlen3.symm hA3
                      (by intro w hw; simp at hw; subst hw; exact hrvnv)
                  · simp at hstep
                · simp at hstep
    -- 1 Pop
    · replace hstep : (do
        let (x, st1) ← stackPop s.stack
        pure ({ s with stack := st1 }, true) : Option (VMState × Bool)) =
          some (s2, cont) := hstep
      have htmp := of_decide_eq_true hOK
      simp only [tempsOf] at htmp
      obtain ⟨A, B, hAB, hlenA, hA, hB⟩ := partitionB_decomp s hpart
      have hslen : s.stack.length = A.length + B.length := by rw [hAB]; simp
      have hBne : B ≠ [] := by intro h0; rw [h0] at hslen; simp at hslen; omega
      cases hpop : stackPop s.stack with
      | none => rw [hpop] at hstep; simp at hstep
      | some p =>
          obtain ⟨x, st1⟩ := p
          rw [hpop] at hstep
          simp at hstep
          obtain ⟨hS, -⟩ := hstep
          subst hS
          have hpop2 : stackPop (A ++ B) = some (x, st1) := by rw [← hAB]; exact hpop
          exact partition_pop1_push s _ hpart [] hpop
            (stackPop_temp_nonvar A B hB hBne hpop2) (by simp) (by simp) rfl
    -- 2 Add
    · exact step_popNum2_preserves s s2 cont hpart (fun a b => .num (a + b))
        (fun a b => rfl) hstep
    -- 3 Sub
    · exact step_popNum2_preserves s s2 cont hpart (fun a b => .num (a - b))
        (fun a b => rfl) hstep
    -- 4 Mul
    · exact step_popNum2_preserves s s2 cont hpart (fun a b => .num (a * b))
        (fun a b => rfl) hstep
    -- 5 Div
    · exact step_popNum2_preserves s s2 cont hpart (fun a b => .num (a / b))
        (fun a b => rfl) hstep
    -- 6 Negate
    · exact step_popNum1_preserves s s2 cont hpart (fun a => .num (-a))
        (fun a => rfl) hstep
    -- 7 Equals
    · exact step_popEq_preserves s s2 cont hpart (of_decide_eq_true hOK)
        (fun a => .bool a) (fun a => rfl) hstep
    -- 8 NotEqual
    · exact step_popEq_preserves s s2 cont hpart (of_decide_eq_true hOK)
        (fun a => .bool (¬ a)) (fun a => rfl) hstep
    -- 9 Not
    · exact step_popBool1_preserves s s2 cont hpart (fun a => .bool (¬ a))
        (fun a => rfl) hstep
    -- 10 Less
    · exact step_popNum2_preserves s s2 cont hpart (fun a b => .bool (decide (a < b)))
        (fun a b => rfl) hstep
    -- 11 LessOrEqual
    · exact step_popNum2_preserves s s2 cont hpart (fun a b => .bool (decide (a ≤ b)))
        (fun a b => rfl) hstep
    -- 12 Greater
    · exact step_popNum2_preserves s s2 cont hpart (fun a b => .bool (decide (a > b)))
        (fun a b => rfl) hstep
    -- 13 GreaterOrEqual
    · exact step_popNum2_preserves s s2 cont hpart (fun a b => .bool (decide (a ≥ b)))
        (fun a b => rfl) hstep
    -- 14 AccessProperty
    · replace hstep : (do
        let (source, st1) ← stackPop s.stack
        let (propV, s1) ← vmReadConstant { s with stack := st1 }
        match propV with
        | .str property =>
            match valueGet source property with
            | .err m => none
            | .crash => none
            | .ok member =>
                match member with
                | .goNil => none
                | .fn n p y c k pp =>
                    pure ({ s1 with stack := s1.stack ++ [.fn n p y c k source] }, true)
                | .builtin tag pp =>
                    pure ({ s1 with stack := s1.stack ++ [.builtin tag source] }, true)
                | other =>
                    pure ({ s1 with stack := s1.stack ++ [other] }, true)
        | _ => none : Option (VMState × Bool)) = some (s2, cont) := hstep
      replace hOK : (match s.stack.getLast? with
        | some v => objMembersOk v
        | none => true) = true := hOK
      cases hpop : stackPop s.stack with
      | none => rw [hpop] at hstep; simp at hstep
      | some p =>
          obtain ⟨source, st1⟩ := p
          rw [hpop] at hstep
          simp only [Option.bind_eq_bind, Option.some_bind] at hstep
          obtain ⟨hgl, -⟩ := stackPop_parts hpop
          rw [hgl] at hOK
          replace hOK : objMembersOk source = true := hOK
          cases hrc : vmReadConstant { s with stack := st1 } with
          | none => rw [hrc] at hstep; simp at hstep
          | some p2 =>
              obtain ⟨propV, s1⟩ := p2
              rw [hrc] at hstep
              simp only [Option.some_bind] at hstep
              obtain ⟨rfl, -⟩ := vmReadConstant_shape hrc
              cases propV
              case str property =>
                simp only [] at hstep
                cases hvg : valueGet source property with
                | err m => rw [hvg] at hstep; simp at hstep
                | crash => rw [hvg] at hstep; simp at hstep
                | ok member =>
                    rw [hvg] at hstep
                    obtain ⟨hsrc, hmem⟩ := valueGet_ok_facts hvg hOK
                    cases member
                    case goNil => simp at hstep
                    case fn n p y c k pp =>
                      simp at hstep
                      obtain ⟨hS, -⟩ := hstep
                      subst hS
                      apply partition_pop1_push s _ hpart _ hpop hsrc
                      case hst => rfl
                      case hve => rfl
                      case hpush =>
                        intro w hw
                        simp at hw
                        subst hw
                        rfl
                    case builtin tag pp =>
                      simp at hstep
                      obtain ⟨hS, -⟩ := hstep
                      subst hS
                      apply partition_pop1_push s _ hpart _ hpop hsrc
                      case hst => rfl
                      case hve => rfl
                      case hpush =>
                        intro w hw
                        simp at hw
                        subst hw
                        rfl
                    all_goals (
                      simp at hstep
                      obtain ⟨hS, -⟩ := hstep
                      subst hS
                      apply partition_pop1_push s _ hpart _ hpop hsrc
                      case hst => rfl
                      case hve => rfl
                      case hpush =>
                        intro w hw
                        simp at hw
                        subst hw
                        exact hmem)
              all_goals simp at hstep
    -- 15 Call
    · exact applyCall_preserves s s2 cont hpart hOK hstep
    -- 16 Descend
    · replace hstep : (some ({ s with scope := s.scope + 1 }, true) :
          Option (VMState × Bool)) = some (s2, cont) := hstep
      simp at hstep
      obtain ⟨hS, -⟩ := hstep
      subst hS
      exact (partitionB_congr s _ rfl rfl).trans hpart
    -- 17 Ascend
    · replace hstep : ((if s.scope - 1 < 0 then none
        else do
          let t ← purgeVars { s with scope := s.scope - 1 }
          pure (t, true)) : Option (VMState × Bool)) = some (s2, cont) := hstep
      have htmp := of_decide_eq_true hOK
      simp only [tempsOf] at htmp
      obtain ⟨A, B, hAB, hlenA, hA, hB⟩ := partitionB_decomp s hpart
      have hslen : s.stack.length = A.length + B.length := by rw [hAB]; simp
      have hall : ∀ v ∈ s.stack, isVariableSlot v = true := by
        intro v hv
        rw [hAB] at hv
        rcases List.mem_append.mp hv with h1 | h2
        · exact hA v h1
        · have : B.length = 0 := by omega
          rw [List.length_eq_zero.mp this] at h2
          simp at h2
      have hlen2 : (s.stack.length : Int) = s.variableEnd := by omega
      split at hstep
      · simp at hstep
      · simp only [Option.bind_eq_bind] at hstep
        unfold purgeVars at hstep
        split at hstep
        · rename_i st3 ve3 heq
          simp at hstep
          obtain ⟨hS, -⟩ := hstep
          subst hS
          obtain ⟨hA3, hlen3⟩ := purgeVarsLoop_allvar _ _ _ _ _ _ heq hall hlen2
          exact partitionB_build _ st3 [] (by simp) hlen3.symm hA3 (by simp)
        · simp at hstep
    -- 18 Jump
    · replace hstep : (do
        let (n, s1) ← nextU16 s
        pure ({ s1 with ip := s1.ip + n }, true) : Option (VMState × Bool)) =
          some (s2, cont) := hstep
      cases hn16 : nextU16 s with
      | none => rw [hn16] at hstep; simp at hstep
      | some p =>
          obtain ⟨n, s1⟩ := p
          rw [hn16] at hstep
          simp at hstep
          obtain ⟨hS, -⟩ := hstep
          subst hS
          obtain rfl := nextU16_shape hn16
          exact (partitionB_congr s _ rfl rfl).trans hpart
    -- 19 JumpFalse
    · replace hstep : (do
        let (n, s1) ← nextU16 s
        let (c, st1) ← popBool s1.stack
        if ¬ c then pure ({ s1 with stack := st1, ip := s1.ip + n }, true)
        else pure ({ s1 with stack := st1 }, true) : Option (VMState × Bool)) =
          some (s2, cont) := hstep
      cases hn16 : nextU16 s with
      | none => rw [hn16] at hstep; simp at hstep
      | some p =>
          obtain ⟨n, s1⟩ := p
          rw [hn16] at hstep
          obtain rfl := nextU16_shape hn16
          simp only [Option.bind_eq_bind, Option.some_bind] at hstep
          cases hpb : popBool ({ s with ip := s.ip + 1 + 1 } : VMState).stack with
          | none => rw [hpb] at hstep; simp at hstep
          | some p2 =>
              obtain ⟨c, st1⟩ := p2
              rw [hpb] at hstep
              simp only [Option.some_bind] at hstep
              have hpb2 : popBool s.stack = some (c, st1) := hpb
              split at hstep <;>
                (simp at hstep
                 obtain ⟨hS, -⟩ := hstep
                 subst hS
                 exact partition_pop1_push s _ hpart [] (popBool_eq hpb2) rfl
                   (by simp) (by simp) rfl)
    -- 20 Loop
    · replace hstep : (do
        let (n, s1) ← nextU16 s
        pure ({ s1 with ip := s1.ip - n }, true) : Option (VMState × Bool)) =
          some (s2, cont) := hstep
      cases hn16 : nextU16 s with
      | none => rw [hn16] at hstep; simp at hstep
      | some p =>
          obtain ⟨n, s1⟩ := p
          rw [hn16] at hstep
          simp at hstep
          obtain ⟨hS, -⟩ := hstep
          subst hS
          obtain rfl := nextU16_shape hn16
          exact (partitionB_congr s _ rfl rfl).trans hpart
    -- 21 GetLocal
    · replace hstep : (do
        let (nameV, s1) ← vmReadConstant s
        match nameV with
        | .str name =>
            match getVarIdx s1.stack s1.variableEnd name with
            | none => none
            | some i =>
                match s1.stack[i]? with
                | some (.varV nm value sc) =>
                    pure ({ s1 with stack := s1.stack ++ [value] }, true)
                | _ => none
        | _ => none : Option (VMState × Bool)) = some (s2, cont) := hstep
      replace hOK : s.stack.all slotInnerOk = true := hOK
      cases hrc : vmReadConstant s with
      | none => rw [hrc] at hstep; simp at hstep
      | some p =>
          obtain ⟨nameV, s1⟩ := p
          rw [hrc] at hstep
          simp only [Option.bind_eq_bind, Option.some_bind] at hstep
          obtain ⟨rfl, -⟩ := vmReadConstant_shape hrc
          split at hstep
          · split at hstep
            · simp at hstep
            · split at hstep
              · rename_i nm value sc heq2
                simp at hstep
                obtain ⟨hS, -⟩ := hstep
                subst hS
                have hslot := mem_of_getElem?_some heq2
                simp only [List.all_eq_true] at hOK
                have hin := hOK _ hslot
                replace hin : (! isVariableSlot value) = true := hin
                refine partition_push_only s _ hpart [value] ?_ rfl rfl
                intro w hw
                simp at hw
                subst hw
                simpa using hin
              · simp at hstep
          · simp at hstep
    -- 22 SetLocal
    · replace hstep : (do
        let (value, st1) ← stackPop s.stack
        let (nameV, s1) ← vmReadConstant { s with stack := st1 }
        match nameV with
        | .str name =>
            match getVarIdx s1.stack s1.variableEnd name with
            | none => none
            | some i =>
                match s1.stack[i]? with
                | some (.varV vn vv vs) => do
                    let cl ← valueClone value
                    pure ({ s1 with stack := s1.stack.set i (.varV vn cl vs) }, true)
                | _ => none
        | _ => none : Option (VMState × Bool)) = some (s2, cont) := hstep
      have htmp := of_decide_eq_true hOK
      simp only [tempsOf] at htmp
      obtain ⟨A, B, hAB, hlenA, hA, hB⟩ := partitionB_decomp s hpart
      have hslen : s.stack.length = A.length + B.length := by rw [hAB]; simp
      have hBne : B ≠ [] := by intro h0; rw [h0] at hslen; simp at hslen; omega
      cases hpop : stackPop s.stack with
      | none => rw [hpop] at hstep; simp at hstep
      | some p =>
          obtain ⟨value, st1⟩ := p
          rw [hpop] at hstep
          simp only [Option.bind_eq_bind, Option.some_bind] at hstep
          have hpop2 : stackPop (A ++ B) = some (value, st1) := by rw [← hAB]; exact hpop
          obtain ⟨B1, hB1, hst1e⟩ := stackPop_of_ne_nil A B hBne hpop2
          have hB1all : ∀ w ∈ B1, isVariableSlot w = false := fun w hw =>
            hB w (by rw [hB1]; simp [hw])
          cases hrc : vmReadConstant { s with stack := st1 } with
          | none => rw [hrc] at hstep; simp at hstep
          | some p2 =>
              obtain ⟨nameV, s1⟩ := p2
              rw [hrc] at hstep
              simp only [Option.some_bind] at hstep
              obtain ⟨rfl, -⟩ := vmReadConstant_shape hrc
              split at hstep
              · split at hstep
                · simp at hstep
                · rename_i name x i heq
                  split at hstep
                  · rename_i vn vv vs heq2
                    cases hcl : valueClone value with
                    | none => rw [hcl] at hstep; simp at hstep
                    | some cl =>
                        rw [hcl] at hstep
                        simp at hstep
                        obtain ⟨hS, -⟩ := hstep
                        subst hS
                        have hi : i < s.variableEnd.toNat := by
                          apply getVarIdxAux_lt st1 s.variableEnd.toNat name i
                          exact heq
                        have hiA : i < A.length := by omega
                        have hsetAB : st1.set i (.varV vn cl vs) =
                            A.set i (.varV vn cl vs) ++ B1 := by
                          rw [hst1e]
                          exact List.set_append_left _ _ hiA
                        refine partitionB_build _ (A.set i (.varV vn cl vs)) B1
                          (by exact hsetAB) ?_ ?_ hB1all
                        · rw [List.length_set]
                          exact hlenA.symm
                        · intro w hw
                          rcases List.mem_or_eq_of_mem_set hw with h1 | h2
                          · exact hA w h1
                          · rw [h2]
                            rfl
                  · simp at hstep
              · simp at hstep
    -- 23 DeclareLocal
    · replace hstep : (do
        let (nameV, s1) ← vmReadConstant s
        match nameV with
        | .str name => do
            let (v, st1) ← stackPop s1.stack
            let cl ← valueClone v
            pure (addVar { s1 with stack := st1 } name cl, true)
        | _ => none : Option (VMState × Bool)) = some (s2, cont) := hstep
      have htmp := of_decide_eq_true hOK
      simp only [tempsOf] at htmp
      obtain ⟨A, B, hAB, hlenA, hA, hB⟩ := partitionB_decomp s hpart
      have hslen : s.stack.length = A.length + B.length := by rw [hAB]; simp
      have hBne : B ≠ [] := by intro h0; rw [h0] at hslen; simp at hslen; omega
      cases hrc : vmReadConstant s with
      | none => rw [hrc] at hstep; simp at hstep
      | some p =>
          obtain ⟨nameV, s1⟩ := p
          rw [hrc] at hstep
          simp only [Option.bind_eq_bind, Option.some_bind] at hstep
          obtain ⟨rfl, -⟩ := vmReadConstant_shape hrc
          split at hstep
          · rename_i name
            cases hpop : stackPop ({ s with ip := s.ip + 1 } : VMState).stack with
            | none => rw [hpop] at hstep; simp at hstep
            | some p2 =>
                obtain ⟨v, st1⟩ := p2
                rw [hpop] at hstep
                simp only [Option.some_bind] at hstep
                have hpop2 : stackPop (A ++ B) = some (v, st1) := by
                  rw [← hAB]; exact hpop
                obtain ⟨B1, hB1, hst1e⟩ := stackPop_of_ne_nil A B hBne hpop2
                have hB1nil : B1 = [] := by
                  have hlB : B.length = B1.length + 1 := by rw [hB1]; simp
                  have : B1.length = 0 := by omega
                  exact List.length_eq_zero.mp this
                cases hcl : valueClone v with
                | none => rw [hcl] at hstep; simp at hstep
                | some cl =>
                    rw [hcl] at hstep
                    simp at hstep
                    obtain ⟨hS, -⟩ := hstep
                    subst hS
                    refine partitionB_build _ (st1 ++ [.varV name cl s.scope]) []
                      ?_ ?_ ?_ (by simp)
                    · simp [addVar]
                    · simp only [addVar]
                      rw [hst1e, hB1nil]
                      simp
                      omega
                    · intro w hw
                      rcases List.mem_append.mp hw with h1 | h2
                      · rw [hst1e, hB1nil] at h1
                        simp at h1
                        exact hA w h1
                      · simp at h2
                        rw [h2]
                        rfl
          · simp at hstep
    -- 24 GetGlobal
    · replace hstep : (do
        let (nameV, s1) ← vmReadConstant s
        match nameV with
        | .str name =>
            match lookupStr s1.globals name with
            | some v => pure ({ s1 with stack := s1.stack ++ [v] }, true)
            | none => pure ({ s1 with stack := s1.stack ++ [.goNil] }, true)
        | _ => none : Option (VMState × Bool)) = some (s2, cont) := hstep
      replace hOK : s.globals.all (fun kv => ! isVariableSlot kv.2) = true := hOK
      cases hrc : vmReadConstant s with
      | none => rw [hrc] at hstep; simp at hstep
      | some p =>
          obtain ⟨nameV, s1⟩ := p
          rw [hrc] at hstep
          simp only [Option.bind_eq_bind, Option.some_bind] at hstep
          obtain ⟨rfl, -⟩ := vmReadConstant_shape hrc
          split at hstep
          · split at hstep
            · rename_i name v hlk
              simp at hstep
              obtain ⟨hS, -⟩ := hstep
              subst hS
              refine partition_push_only s _ hpart [v] ?_ rfl rfl
              intro w hw
              simp at hw
              subst hw
              obtain ⟨k2, hmem⟩ := lookupStr_mem _ _ _ hlk
              simp only [List.all_eq_true] at hOK
              simpa using hOK (k2, w) hmem
            · simp at hstep
              obtain ⟨hS, -⟩ := hstep
              subst hS
              exact partition_push_only s _ hpart [.goNil]
                (by intro w hw; simp at hw; subst hw; rfl) rfl rfl
          · simp at hstep
    -- 25 SetGlobal
    · replace hstep : (do
        let (nameV, s1) ← vmReadConstant s
        match nameV with
        | .str name => do
            let (v, st1) ← stackPop s1.stack
            pure ({ s1 with stack := st1, globals := setAssoc s1.globals name v }, true)
        | _ => none : Option (VMState × Bool)) = some (s2, cont) := hstep
      have htmp := of_decide_eq_true hOK
      simp only [tempsOf] at htmp
      obtain ⟨A, B, hAB, hlenA, hA, hB⟩ := partitionB_decomp s hpart
      have hslen : s.stack.length = A.length + B.length := by rw [hAB]; simp
      have hBne : B ≠ [] := by intro h0; rw [h0] at hslen; simp at hslen; omega
      cases hrc : vmReadConstant s with
      | none => rw [hrc] at hstep; simp at hstep
      | some p =>
          obtain ⟨nameV, s1⟩ := p
          rw [hrc] at hstep
          simp only [Option.bind_eq_bind, Option.some_bind] at hstep
          obtain ⟨rfl, -⟩ := vmReadConstant_shape hrc
          split at hstep
          · rename_i name
            cases hpop : stackPop ({ s with ip := s.ip + 1 } : VMState).stack with
            | none => rw [hpop] at hstep; simp at hstep
            | some p2 =>
                obtain ⟨v, st1⟩ := p2
                rw [hpop] at hstep
                simp at hstep
                obtain ⟨hS, -⟩ := hstep
                subst hS
                have hpop2 : stackPop (A ++ B) = some (v, st1) := by
                  rw [← hAB]; exact hpop
                exact partition_pop1_push s _ hpart [] hpop
                  (stackPop_temp_nonvar A B hB hBne hpop2) (by simp) (by simp) rfl
          · simp at hstep
    -- 26 StringConversion
    · replace hstep : (do
        let (v, st1) ← stackPop s.stack
        match valueString v with
        | none => none
        | some t => pure ({ s with stack := st1 ++ [.str t] }, true) :
          Option (VMState × Bool)) = some (s2, cont) := hstep
      have htmp := of_decide_eq_true hOK
      simp only [tempsOf] at htmp
      obtain ⟨A, B, hAB, hlenA, hA, hB⟩ := partitionB_decomp s hpart
      have hslen : s.stack.length = A.length + B.length := by rw [hAB]; simp
      have hBne : B ≠ [] := by intro h0; rw [h0] at hslen; simp at hslen; omega
      cases hpop : stackPop s.stack with
      | none => rw [hpop] at hstep; simp at hstep
      | some p =>
          obtain ⟨v, st1⟩ := p
          rw [hpop] at hstep
          simp only [Option.bind_eq_bind, Option.some_bind] at hstep
          have hpop2 : stackPop (A ++ B) = some (v, st1) := by rw [← hAB]; exact hpop
          cases hvs : valueString v with
          | none => rw [hvs] at hstep; simp at hstep
          | some t =>
              rw [hvs] at hstep
              simp at hstep
              obtain ⟨hS, -⟩ := hstep
              subst hS
              exact partition_pop1_push s _ hpart [.str t] hpop
                (stackPop_temp_nonvar A B hB hBne hpop2)
                (by intro w hw; simp at hw; subst hw; rfl) rfl rfl
    -- 27 StringConcatenation
    · exact step_popStr2_preserves s s2 cont hpart (fun a b => .str (a ++ b))
        (fun a b => rfl) hstep
    -- 28 Swap
    · replace hstep : (do
        let (r, st1) ← stackPop s.stack
        let (l, st2) ← stackPop st1
        pure ({ s with stack := st2 ++ [r, l] }, true) : Option (VMState × Bool)) =
          some (s2, cont) := hstep
      have htmp := of_decide_eq_true hOK
      simp only [tempsOf] at htmp
      obtain ⟨A, B, hAB, hlenA, hA, hB⟩ := partitionB_decomp s hpart
      have hslen : s.stack.length = A.length + B.length := by rw [hAB]; simp
      have hBne : B ≠ [] := by intro h0; rw [h0] at hslen; simp at hslen; omega
      cases hp1 : stackPop s.stack with
      | none => rw [hp1] at hstep; simp at hstep
      | some p1 =>
          obtain ⟨r, st1⟩ := p1
          rw [hp1] at hstep
          simp only [Option.bind_eq_bind, Option.some_bind] at hstep
          have hp1b : stackPop (A ++ B) = some (r, st1) := by rw [← hAB]; exact hp1
          have hv1 : isVariableSlot r = false := stackPop_temp_nonvar A B hB hBne hp1b
          obtain ⟨B1, hB1, hst1e⟩ := stackPop_of_ne_nil A B hBne hp1b
          have hlB1 : B.length = B1.length + 1 := by rw [hB1]; simp
          have hB1all : ∀ w ∈ B1, isVariableSlot w = false := fun w hw =>
            hB w (by rw [hB1]; simp [hw])
          have hB1ne : B1 ≠ [] := by
            intro h0
            rw [h0] at hlB1
            simp at hlB1
            omega
          cases hp2 : stackPop st1 with
          | none => rw [hp2] at hstep; simp at hstep
          | some p2 =>
              obtain ⟨l, st2⟩ := p2
              rw [hp2] at hstep
              simp at hstep
              obtain ⟨hS, -⟩ := hstep
              subst hS
              have hp2b : stackPop (A ++ B1) = some (l, st2) := by
                rw [← hst1e]; exact hp2
              have hv2 : isVariableSlot l = false :=
                stackPop_temp_nonvar A B1 hB1all hB1ne hp2b
              refine partition_pop2_push s _ hpart [r, l] hp1 hp2 hv1 hv2 ?_ rfl rfl
              intro w hw
              simp at hw
              rcases hw with rfl | rfl
              · exact hv1
              · exact hv2
    -- 29 And
    · exact step_popBool2_preserves s s2 cont hpart (fun a b => .bool (a && b))
        (fun a b => rfl) hstep
    -- 30 Or
    · exact step_popBool2_preserves s s2 cont hpart (fun a b => .bool (a || b))
        (fun a b => rfl) hstep
    -- 31 Constant
    · replace hstep : (do
        let (v, s1) ← vmReadConstant s
        pure ({ s1 with stack := s1.stack ++ [v] }, true) : Option (VMState × Bool)) =
          some (s2, cont) := hstep
      replace hOK : s.chunk.constants.all (fun v => ! isVariableSlot v) = true := hOK
      cases hrc : vmReadConstant s with
      | none => rw [hrc] at hstep; simp at hstep
      | some p =>
          obtain ⟨v, s1⟩ := p
          rw [hrc] at hstep
          simp at hstep
          obtain ⟨hS, -⟩ := hstep
          subst hS
          obtain ⟨rfl, hvmem⟩ := vmReadConstant_shape hrc
          simp only [List.all_eq_true] at hOK
          refine partition_push_only s _ hpart [v] ?_ rfl rfl
          intro w hw
          simp at hw
          subst hw
          simpa using hOK _ hvmem
    -- 32 True
    · replace hstep : (some ({ s with stack := s.stack ++ [Value.bool true] }, true) :
          Option (VMState × Bool)) = some (s2, cont) := hstep
      simp at hstep
      obtain ⟨hS, -⟩ := hstep
      subst hS
      exact partition_push_only s _ hpart [.bool true]
        (by intro w hw; simp at hw; subst hw; rfl) rfl rfl
    -- 33 False
    · replace hstep : (some ({ s with stack := s.stack ++ [Value.bool false] }, true) :
          Option (VMState × Bool)) = some (s2, cont) := hstep
      simp at hstep
      obtain ⟨hS, -⟩ := hstep
      subst hS
      exact partition_push_only s _ hpart [.bool false]
        (by intro w hw; simp at hw; subst hw; rfl) rfl rfl
    -- 34 Nil
    · replace hstep : (some ({ s with stack := s.stack ++ [Value.nil] }, true) :
          Option (VMState × Bool)) = some (s2, cont) := hstep
      simp at hstep
      obtain ⟨hS, -⟩ := hstep
      subst hS
      exact partition_push_only s _ hpart [.nil]
        (by intro w hw; simp at hw; subst hw; rfl) rfl rfl
    -- 35 NewList
    · replace hstep : (some ({ s with stack := s.stack ++ [Value.list []] }, true) :
          Option (VMState × Bool)) = some (s2, cont) := hstep
      simp at hstep
      obtain ⟨hS, -⟩ := hstep
      subst hS
      exact partition_push_only s _ hpart [.list []]
        (by intro w hw; simp at hw; subst hw; rfl) rfl rfl
    -- 36 Append
    · replace hstep : (do
        let (value, st1) ← stackPop s.stack
        let (items, st2) ← popList st1
        pure ({ s with stack := st2 ++ [.list (items ++ [value])] }, true) :
          Option (VMState × Bool)) = some (s2, cont) := hstep
      have htmp := of_decide_eq_true hOK
      simp only [tempsOf] at htmp
      obtain ⟨A, B, hAB, hlenA, hA, hB⟩ := partitionB_decomp s hpart
      have hslen : s.stack.length = A.length + B.length := by rw [hAB]; simp
      have hBne : B ≠ [] := by intro h0; rw [h0] at hslen; simp at hslen; omega
      cases hp1 : stackPop s.stack with
      | none => rw [hp1] at hstep; simp at hstep
      | some p1 =>
          obtain ⟨value, st1⟩ := p1
          rw [hp1] at hstep
          simp only [Option.bind_eq_bind, Option.some_bind] at hstep
          have hp1b : stackPop (A ++ B) = some (value, st1) := by rw [← hAB]; exact hp1
          have hv1 : isVariableSlot value = false := stackPop_temp_nonvar A B hB hBne hp1b
          cases hp2 : popList st1 with
          | none => rw [hp2] at hstep; simp at hstep
          | some p2 =>
              obtain ⟨items, st2⟩ := p2
              rw [hp2] at hstep
              simp at hstep
              obtain ⟨hS, -⟩ := hstep
              subst hS
              exact partition_pop2_push s _ hpart [.list (items ++ [value])] hp1
                (popList_eq hp2) hv1 rfl
                (by intro w hw; simp at hw; subst hw; rfl) rfl rfl
    -- 37 FormList
    · replace hstep : (do
        let (n, s1) ← nextU16 s
        let (items, st1) ← stackPopN s1.stack n
        pure ({ s1 with stack := st1 ++ [.list items] }, true) :
          Option (VMState × Bool)) = some (s2, cont) := hstep
      replace hOK : (match nextU16 s with
        | some (n, _) => decide ((n : Int) ≤ tempsOf s)
        | none => true) = true := hOK
      cases hn16 : nextU16 s with
      | none => rw [hn16] at hstep; simp at hstep
      | some p =>
          obtain ⟨n, s1⟩ := p
          rw [hn16] at hstep
          rw [hn16] at hOK
          simp only [decide_eq_true_eq, tempsOf] at hOK
          obtain rfl := nextU16_shape hn16
          simp only [Option.bind_eq_bind, Option.some_bind] at hstep
          obtain ⟨A, B, hAB, hlenA, hA, hB⟩ := partitionB_decomp s hpart
          have hslen : s.stack.length = A.length + B.length := by rw [hAB]; simp
          have hnB : n ≤ B.length := by omega
          have hpn : stackPopN ({ s with ip := s.ip + 1 + 1 } : VMState).stack n =
              some (B.drop (B.length - n), A ++ B.take (B.length - n)) := by
            show stackPopN s.stack n = _
            rw [hAB]
            exact stackPopN_append A B n hnB
          rw [hpn] at hstep
          simp at hstep
          obtain ⟨hS, -⟩ := hstep
          subst hS
          refine partitionB_build _ A (B.take (B.length - n) ++ [.list (B.drop (B.length - n))])
            (by simp) hlenA.symm hA ?_
          intro w hw
          simp only [List.mem_append, List.mem_singleton] at hw
          rcases hw with h1 | h2
          · exact hB w (List.mem_of_mem_take h1)
          · rw [h2]
            rfl
    -- 38 ConcatLists
    · exact step_popList2_preserves s s2 cont hpart (fun a b => .list (a ++ b))
        (fun a b => rfl) hstep
    -- 39 Breakpoint
    · replace hstep : (some (s, true) : Option (VMState × Bool)) = some (s2, cont) := hstep
      simp at hstep
      obtain ⟨hS, -⟩ := hstep
      subst hS
      exact hpart

theorem step_preserves_partition (s s2 : VMState) (cont : Bool)
    (hpart : partitionB s = true) (hsafe : stepSafe s = true)
    (hstep : step s = some (s2, cont)) :
    partitionB s2 = true := by
  unfold step at hstep
  by_cases hnx : VMhasNext s = true
  · rw [if_neg (by simpa using hnx)] at hstep
    cases hvb : vmNextByte s with
    | none => rw [hvb] at hstep; cases hstep
    | some p =>
        obtain ⟨b, s1⟩ := p
        rw [hvb] at hstep
        obtain ⟨rfl, -⟩ := vmNextByte_shape hvb
        unfold stepSafe at hsafe
        rw [hvb] at hsafe
        replace hsafe : stepInstrOK { s with ip := s.ip + 1 } b = true := hsafe
        have hpart1 : partitionB { s with ip := s.ip + 1 } = true := hpart
        exact stepInstr_preserves_partition _ b s2 cont hpart1 hsafe hstep
  · rw [if_pos (by simpa using hnx)] at hstep
    simp at hstep
    obtain ⟨hS, -⟩ := hstep
    subst hS
    exact hpart

/-!
Claim theorems.
-/

/-- C1: constant folding of a boolean or disagrees with the VM.  The
tree false or true is constant to the folder, and compute folds it to
false — the or case of computeBinary evaluates the Go conjunction of
its operands — while the Or instruction run on the same two operands
leaves true on the stack. -/
theorem compute_or_folding_diverges_from_vm :
    isTreeConstant orFoldTree = some true ∧
    compute orFoldTree = .ok (.bool false) ∧
    (stepN 3 orChunkVM).map VMState.stack = some [.bool true] := by
  refine ⟨by simp [orFoldTree, isTreeConstant], ?_, rfl⟩
  simp [orFoldTree, compute, computeBinary, Value.typeOf]

/-- C2 (counterexample): a Call in the middle of evaluating a larger
expression breaks the variableEnd partition.  The chunk loads the
pending temporary 1, the argument 2 and a one-parameter function and
calls it; after the three loads the partition holds, and after the Call
the new variableEnd covers the still-unconsumed temporary 1, a
non-Variable slot below the variable region's bound. -/
theorem call_mid_expression_breaks_partition :
    (stepN 3 midExprCallState).map partitionB = some true ∧
    (stepN 4 midExprCallState).map partitionB = some false ∧
    (stepN 4 midExprCallState).map
      (fun s => (s.variableEnd, s.stack.map isVariableSlot)) = some (2, [false, true]) :=
  ⟨rfl, rfl, rfl⟩

/-- C2 (amended): after every completed instruction of a well-typed
program whose calls and declarations are statement-shaped, the value
stack is partitioned by variableEnd — slots below it are Variable
wrappers, slots from it to the top are non-Variable temporaries.  The
per-instruction side conditions are collected in stepNSafe; a Call in
the middle of a larger expression violates them and breaks the
partition (the counterexample above). -/
theorem vm_partition_invariant (n : Nat) (s s2 : VMState)
    (hpart : partitionB s = true) (hsafe : stepNSafe n s = true)
    (hrun : stepN n s = some s2) :
    partitionB s2 = true := by
  induction n generalizing s with
  | zero =>
      simp [stepN] at hrun
      rw [← hrun]
      exact hpart
  | succ m ih =>
      simp only [stepN] at hrun
      simp only [stepNSafe, Bool.and_eq_true] at hsafe
      obtain ⟨hsafe1, hsafeN⟩ := hsafe
      cases hst : step s with
      | none => rw [hst] at hrun; cases hrun
      | some p =>
          obtain ⟨s1, c⟩ := p
          rw [hst] at hrun hsafeN
          cases c with
          | false => simp at hrun
          | true =>
              replace hsafeN : stepNSafe m s1 = true := hsafeN
              exact ih s1 (step_preserves_partition s s1 true hpart hsafe1 hst) hsafeN hrun

/-- C2 (amended, witness): a one-step run of the statement-level call
of a zero-parameter function keeps the partition. -/
theorem vm_partition_invariant_witness :
    partitionB stmtCallState = true ∧ stepNSafe 1 stmtCallState = true ∧
    stepN 1 stmtCallState = some
      { chunk := { bytecode := [InstructionReturn], constants := [] },
        ip := 0, scope := 0, globals := [], variableEnd := 0, stack := [],
        callStack := [{ chunk := { bytecode := [InstructionCall], constants := [] },
                        ip := 1, stackEnd := 0, variableEnd := 0, scope := 0 }] } ∧
    partitionB
      { chunk := { bytecode := [InstructionReturn], constants := [] },
        ip := 0, scope := 0, globals := [], variableEnd := 0, stack := [],
        callStack := [{ chunk := { bytecode := [InstructionCall], constants := [] },
                        ip := 1, stackEnd := 0, variableEnd := 0, scope := 0 }] } = true :=
  ⟨rfl, rfl, rfl, vm_partition_invariant 1 stmtCallState _ rfl rfl rfl⟩

/-- C3: the Return instruction follows the specification's rule — on an
empty call stack the VM halts, and otherwise the return value is
popped, then the top Call frame, variableEnd is restored, the stack top
is cut to the frame's pre-call stack top, scope, ip and chunk are
restored, purgeVars runs, and the return value is pushed back. -/
theorem return_instruction_follows_spec (s : VMState)
    (hn : VMhasNext s = true)
    (hb : readByteAt s.chunk s.ip = some InstructionReturn) :
    step s = returnStepSpec { s with ip := s.ip + 1 } := by
  have hn2 : s.ip < (s.chunk.bytecode.length : Int) := by
    simpa [VMhasNext] using hn
  unfold step vmNextByte
  simp only [hn, hb, not_true, if_pos hn2, Bool.true_eq_false, ite_false]
  rfl

/-- C3 (witness): the Return rule at a concrete in-call state, one
caller variable below variableEnd and the return value on top. -/
theorem return_instruction_follows_spec_witness :
    step retWitnessState =
      returnStepSpec { retWitnessState with ip := retWitnessState.ip + 1 } :=
  return_instruction_follows_spec retWitnessState rfl rfl

/-- C4: a file imported from two different importing files is compiled
twice.  In the diamond graph A imports B and C, each of which imports
D; the compilation trace of A records D's statements once below B and
once below C — the already-resolved check of resolveImport never hits,
as no path is ever appended to the resolved-imports list. -/
theorem diamond_import_compiled_twice :
    CompileGo diamondProg (fun a b => a == b) 10 ⟨[], [], []⟩ "A" =
      some (.ok ⟨[], [], ["D", "B", "D", "C", "A"]⟩) ∧
    (["D", "B", "D", "C", "A"].count "D") = 2 :=
  ⟨rfl, rfl⟩

/-- C5: DeclareLocal on a list value stores a deep clone — the new
variable's container lives at a fresh address past the old heap, and
appending to either container leaves every view of the other container
unchanged: the two variables never alias. -/
theorem declareLocal_clone_no_alias
    (H : Heap) (fuel : Nat) (a0 : Nat) (H2 : Heap) (w : HValue) (nm : String) (sc : Int)
    (hvalid : heapClosedIn (fun i => decide (i < H.length)) H)
    (ha0 : a0 < H.length)
    (hdecl : hDeclareLocal fuel H (.hlistRef a0) nm sc = some (H2, w)) :
    ∃ a1 ext, H.length ≤ a1 ∧ w = .hvar nm (.hlistRef a1) sc ∧ H2 = H ++ ext ∧
      (∀ x H3 fv, hAppendAt H2 a1 x = some H3 →
        hView fv H3 (.hlistRef a0) = hView fv H2 (.hlistRef a0)) ∧
      (∀ y H3 fv, hAppendAt H2 a0 y = some H3 →
        hView fv H3 (.hlistRef a1) = hView fv H2 (.hlistRef a1)) := by
  have hclone : ∃ c, hClone fuel H (.hlistRef a0) = some (H2, c) ∧ w = .hvar nm c sc := by
    unfold hDeclareLocal at hdecl
    cases hcc : hClone fuel H (.hlistRef a0) with
    | none => rw [hcc] at hdecl; simp at hdecl
    | some p =>
        obtain ⟨Hc, c⟩ := p
        rw [hcc] at hdecl
        simp at hdecl
        exact ⟨c, by rw [hdecl.1], hdecl.2.symm⟩
  obtain ⟨c, hcc, rfl⟩ := hclone
  have hshape : ∃ a1, c = .hlistRef a1 := by
    cases fuel with
    | zero => simp [hClone] at hcc
    | succ n =>
        simp only [hClone] at hcc
        cases hh : H[a0]? with
        | none => rw [hh] at hcc; simp at hcc
        | some cont =>
            rw [hh] at hcc
            cases cont with
            | ob ms => simp at hcc
            | ls items =>
                simp only [Option.bind_eq_bind] at hcc
                cases hcl1 : hCloneList n H items with
                | none => rw [hcl1] at hcc; simp at hcc
                | some p =>
                    obtain ⟨Hmid, items2⟩ := p
                    rw [hcl1] at hcc
                    simp at hcc
                    exact ⟨Hmid.length, hcc.2.symm⟩
  obtain ⟨a1, rfl⟩ := hshape
  have hvac : ∀ i, H.length ≤ i → ∀ cont, H[i]? = some cont →
      contRefsIn (fun a => decide (H.length ≤ a)) cont = true := by
    intro i hi cont hcont
    rw [List.getElem?_eq_none (by omega)] at hcont
    exact absurd hcont (by simp)
  obtain ⟨⟨ext, rfl⟩, hrefs, hclosedHigh⟩ :=
    (hClone_facts H.length fuel).1 H (.hlistRef a0) _ _ (le_refl _) hvac hcc
  have ha1 : H.length ≤ a1 := by simpa [hvalRefsIn] using hrefs
  refine ⟨a1, ext, ha1, rfl, rfl, ?_, ?_⟩
  · intro x H3 fv happ
    have hH3 : ∃ items3, (H ++ ext)[a1]? = some (.ls items3) ∧
        H3 = (H ++ ext).set a1 (.ls (items3 ++ [x])) := by
      unfold hAppendAt at happ
      cases hh : (H ++ ext)[a1]? with
      | none => rw [hh] at happ; simp at happ
      | some cont =>
          rw [hh] at happ
          cases cont with
          | ob ms => simp at happ
          | ls items3 => simp at happ; exact ⟨items3, rfl, happ.symm⟩
    obtain ⟨items3, hget, rfl⟩ := hH3
    have hagree : ∀ i, decide (i < H.length) = true →
        (H ++ ext)[i]? = ((H ++ ext).set a1 (.ls (items3 ++ [x])))[i]? := by
      intro i hi
      simp only [decide_eq_true_eq] at hi
      exact (List.getElem?_set_ne (by omega)).symm
    have hclLow : heapClosedIn (fun i => decide (i < H.length)) (H ++ ext) := by
      intro i hi cont hcont
      simp only [decide_eq_true_eq] at hi
      rw [getElem?_append_lt _ _ _ hi] at hcont
      exact hvalid i (by simpa using hi) cont hcont
    exact ((hView_congr _ _ _ hagree hclLow fv).1 (.hlistRef a0)
      (by simp [hvalRefsIn, ha0])).symm
  · intro y H3 fv happ
    have hH3 : ∃ items3, (H ++ ext)[a0]? = some (.ls items3) ∧
        H3 = (H ++ ext).set a0 (.ls (items3 ++ [y])) := by
      unfold hAppendAt at happ
      cases hh : (H ++ ext)[a0]? with
      | none => rw [hh] at happ; simp at happ
      | some cont =>
          rw [hh] at happ
          cases cont with
          | ob ms => simp at happ
          | ls items3 => simp at happ; exact ⟨items3, rfl, happ.symm⟩
    obtain ⟨items3, hget, rfl⟩ := hH3
    have hagree : ∀ i, decide (H.length ≤ i) = true →
        (H ++ ext)[i]? = ((H ++ ext).set a0 (.ls (items3 ++ [y])))[i]? := by
      intro i hi
      simp only [decide_eq_true_eq] at hi
      exact (List.getElem?_set_ne (by omega)).symm
    have hclHigh : heapClosedIn (fun i => decide (H.length ≤ i)) (H ++ ext) := by
      intro i hi cont hcont
      simp only [decide_eq_true_eq] at hi
      exact hclosedHigh i hi cont hcont
    exact ((hView_congr _ _ _ hagree hclHigh fv).1 (.hlistRef a1)
      (by simp [hvalRefsIn, ha1])).symm

/-- C5 (witness): declaring a variable b from the list at address 0 of
a one-cell heap clones the list to the fresh address 1, and appending
to either list leaves every view of the other unchanged. -/
theorem declareLocal_clone_no_alias_witness :
    ∃ a1 ext, ([HContainer.ls [.hnum 1]] : Heap).length ≤ a1 ∧
      HValue.hvar "b" (.hlistRef 1) 0 = .hvar "b" (.hlistRef a1) 0 ∧
      ([HContainer.ls [.hnum 1], HContainer.ls [.hnum 1]] : Heap) =
        [HContainer.ls [.hnum 1]] ++ ext ∧
      (∀ x H3 fv,
        hAppendAt [HContainer.ls [.hnum 1], HContainer.ls [.hnum 1]] a1 x = some H3 →
        hView fv H3 (.hlistRef 0) =
          hView fv [HContainer.ls [.hnum 1], HContainer.ls [.hnum 1]] (.hlistRef 0)) ∧
      (∀ y H3 fv,
        hAppendAt [HContainer.ls [.hnum 1], HContainer.ls [.hnum 1]] 0 y = some H3 →
        hView fv H3 (.hlistRef a1) =
          hView fv [HContainer.ls [.hnum 1], HContainer.ls [.hnum 1]] (.hlistRef a1)) :=
  declareLocal_clone_no_alias [.ls [.hnum 1]] 3 0
    [HContainer.ls [.hnum 1], HContainer.ls [.hnum 1]] (.hvar "b" (.hlistRef 1) 0) "b" 0
    (by
      intro a ha cont hcont
      simp only [decide_eq_true_eq, List.length_singleton] at ha
      have h0 : a = 0 := by omega
      subst h0
      simp at hcont
      subst hcont
      rfl)
    (by decide)
    (by simp [hDeclareLocal, hClone, hCloneList])

/-- C6 (counterexample): the call str(1) has a Constant builtin callee
and a constant argument, yet isTreeConstant classifies it as not
constant — the callee expression is a reference, and references are in
the not-predictable case list of the source switch, so the some-true
branch of the call case never fires for a named callee. -/
theorem builtin_call_with_constant_args_not_constant :
    builtinIsConstant .strB = true ∧
    isTreeConstant (.callN (.refN "str") [.numN 1] true) = some false := by
  refine ⟨rfl, ?_⟩
  simp [isTreeConstant, isTreeConstantList]

/-- C6 (amended): a call whose callee expression is a reference — the
only shape under which a program names a builtin — is never classified
constant when all its arguments are: isTreeConstant answers some false,
and the compiler does not pre-evaluate the call. -/
theorem call_with_reference_source_never_constant
    (name : String) (args : List Node) (keep : Bool)
    (h : isTreeConstantList args = some true) :
    isTreeConstant (.callN (.refN name) args keep) = some false := by
  simp [isTreeConstant, h]

/-- C6 (amended, witness): the call type(2, "x") with discarded result
is classified not constant. -/
theorem call_with_reference_source_never_constant_witness :
    isTreeConstant (.callN (.refN "type") [.numN 2, .strN "x"] false) = some false :=
  call_with_reference_source_never_constant "type" [.numN 2, .strN "x"] false
    (by simp [isTreeConstantList, isTreeConstant])

/-- C7: the split prototype member's declared signature returns Nil,
not List[String] — the Out field of the split builtin is the nil
signature — and the compiler's type deduction for a split call on a
string receiver accordingly yields Nil, which differs from the
list-of-string signature the specification declares. -/
theorem split_signature_declared_nil :
    builtinSig .splitP = .fnT [.strT] .nilT ∧
    deduceSignature [] splitCallNode = .ok .nilT ∧
    TypeSig.nilT ≠ TypeSig.listT .strT := by
  refine ⟨rfl, ?_, by simp⟩
  simp [deduceSignature, splitCallNode, getVarSignature, DefaultGlobals, StringPrototype,
        SignatureOf, builtinSig, TypeSig.typeOf, deduceCallArgs, TypeSig.matches, TypeSig.isNull]

/-- C8: the at prototype member checks only the upper bound.  On the
one-element list [7], at 0 returns the element and at 1 is the runtime
error of the bounds check, but at -1 passes the check and indexes the
Go slice with a negative index — a panic, not a runtime error. -/
theorem list_at_bounds_check_misses_negative :
    listAtGo [.num 7] 0 = .ok (.num 7) ∧
    listAtGo [.num 7] 1 = .err "list index out of range" ∧
    listAtGo [.num 7] (-1) = .crash := by
  refine ⟨?_, ?_, ?_⟩
  · norm_num [listAtGo, goTruncToInt]
  · norm_num [listAtGo, goTruncToInt]
  · have h1 : ((-1 : ℚ)) = ((-1 : ℤ) : ℚ) := by norm_num
    simp only [listAtGo, goTruncToInt, h1, Int.ceil_intCast, Int.floor_intCast]
    norm_num

/-- C9: u16 emission round-trips.  For every 16-bit value v and
position p, putU16 leaves the write cursor unchanged and writes the two
big-endian bytes at p and p+1, and the VM's NextU16 read at p
reconstructs exactly v. -/
theorem putU16_roundtrip (c : CState) (p v : Nat) (hv : v < 65536) :
    (putU16 c p v).ip = c.ip ∧ NextU16At (putU16 c p v).bytecode p = some v := by
  refine ⟨rfl, ?_⟩
  show NextU16At (cAdd (cAdd { c with ip := p } (v / 256)) (v % 256)).bytecode p = some v
  have hlen : p < (cAdd { c with ip := p } (v / 256)).bytecode.length := by
    rw [cAdd_length]
    simp
  have h2 : (cAdd (cAdd { c with ip := p } (v / 256)) (v % 256)).bytecode[p]? =
      some (v / 256) := by
    rw [cAdd_get_preserve _ _ _ (by simp [cAdd]) hlen]
    exact cAdd_get_self { c with ip := p } (v / 256)
  have h3 : (cAdd (cAdd { c with ip := p } (v / 256)) (v % 256)).bytecode[p + 1]? =
      some (v % 256) :=
    cAdd_get_self (cAdd { c with ip := p } (v / 256)) (v % 256)
  simp only [NextU16At, Option.bind_eq_bind, h2, h3, Option.some_bind]
  congr 1
  omega

/-- C9 (witness): the round-trip at cursor 5, patch position 1, value
43981 (0xABCD). -/
theorem putU16_roundtrip_witness :
    (putU16 ⟨[], 5⟩ 1 43981).ip = 5 ∧
    NextU16At (putU16 ⟨[], 5⟩ 1 43981).bytecode 1 = some 43981 :=
  putU16_roundtrip ⟨[], 5⟩ 1 43981 (by decide)

/-- C10: object equality checks only the receiver's members.  An
object with no members Equals every object; an object Equals one that
has every one of its members plus extras; and the reverse comparison of
the latter pair is not even defined — the receiver's member lookup on
the other object panics on the first missing key. -/
theorem object_equals_receiver_members_only :
    (∀ ms : List (String × Value), valueEquals (.obj []) (.obj ms) = some true) ∧
    valueEquals (.obj [("a", .num 1)]) (.obj [("a", .num 1), ("b", .num 2)]) = some true ∧
    valueEquals (.obj [("a", .num 1)]) (.obj []) = none := by
  refine ⟨?_, ?_, ?_⟩
  · intro ms
    simp [valueEquals, valueEqualsMembers]
  · simp [valueEquals, valueEqualsMembers, lookupStr, Value.typeOf]
  · simp [valueEquals, valueEqualsMembers, lookupStr]

end Anglais
